import Mathlib

/-!
# Verification of the `Memorize` memory subsystem

Shallow embedding of `src/memory/` (memory_schema.py, memory_manager.py,
semantic_memory.py, structured_memory.py, visual_memory.py, memory_merger.py).

Modelling conventions:
* Python `datetime` timestamps are modelled as `Nat` (microseconds since the
  epoch); `datetime.utcnow()` is modelled by passing the current clock value
  `now : Nat` explicitly to every operation that reads the clock.  A single
  operation uses one `now` for all its internal clock reads.
* Python `float` fields that are merely carried (confidence, bounding boxes,
  embeddings) and the Merger's scores are modelled as `Rat`.  All score
  constants in the source (0.5, 0.2, 0.3, 0.05, 0.01, 0.1) and their sums are
  exactly representable, and the additions performed stay exact.
* Python's insertion-ordered `dict` is modelled as an association list
  (`List (String × β)`) with in-place update (`dictInsert`), which preserves
  the position of an existing key exactly as CPython dicts do.
* The SQLite table `memories` (primary key `entity_id`) is modelled as an
  association list of rows keyed by `entity_id`; `INSERT OR REPLACE` is
  `dictInsert`, `DELETE` is `dictRemove`.
* Fallible Python code (statements that can raise) is modelled with
  `Option`/`Except`; a `none`/`.error` result marks the raised exception.
-/

namespace Memorize

/-! ## Association-list dictionaries (model of Python `dict`) -/

/-- First-match lookup, the model of `d.get(k)` / `d[k]`. -/
def dictLookup {β : Type} (k : String) : List (String × β) → Option β
  | [] => none
  | p :: ps => if p.1 = k then some p.2 else dictLookup k ps

/-- In-place update `d[k] = v`: replaces the value at an existing key without
moving it, otherwise appends — exactly CPython's insertion-order semantics. -/
def dictInsert {β : Type} (k : String) (v : β) : List (String × β) → List (String × β)
  | [] => [(k, v)]
  | p :: ps => if p.1 = k then (k, v) :: ps else p :: dictInsert k v ps

/-- Removal `d.pop(k, None)` / SQL `DELETE ... WHERE entity_id=?`. -/
def dictRemove {β : Type} (k : String) : List (String × β) → List (String × β)
  | [] => []
  | p :: ps => if p.1 = k then dictRemove k ps else p :: dictRemove k ps

/-- Keys of an association list, in order. -/
def dictKeys {β : Type} (d : List (String × β)) : List String :=
  d.map Prod.fst

/-- Model of Python `list.remove(a)`: removes the first occurrence of `a`;
`none` models the `ValueError` raised when `a` is absent. -/
def pyListRemove (a : String) : List String → Option (List String)
  | [] => none
  | x :: xs =>
    if x = a then some xs
    else (pyListRemove a xs).map (fun ys => x :: ys)

/-! ## Substring test (model of Python `in` on strings) -/

/-- Substring helper: `containsSub needle hay` models Python `needle in hay` on character
lists: true iff `needle` occurs contiguously inside `hay`. -/
def containsSub (needle : List Char) : List Char → Bool
  | [] => needle.isEmpty
  | c :: rest => List.isPrefixOf needle (c :: rest) || containsSub needle rest

/-- Python `needle in hay` on strings. -/
def pyIn (needle hay : String) : Bool :=
  containsSub needle.data hay.data

/-- ASCII lower-casing of one character (model of Python `str.lower`, which
the source only ever applies to names and queries). -/
def charLower (c : Char) : Char :=
  if 65 ≤ c.toNat ∧ c.toNat ≤ 90 then Char.ofNat (c.toNat + 32) else c

/-- Model of Python `s.lower()`. -/
def strLower (s : String) : String :=
  String.mk (s.data.map charLower)

/-! ## Textual timestamps

`save_memory` writes timestamps with `datetime.isoformat()` (or `str()` inside
the JSON payloads) and `_load_from_db` reads them back with
`datetime.fromisoformat`, an exact inverse at the `datetime` type's fixed
microsecond precision.  With timestamps modelled as microsecond counts
(`Nat`), the textual form is modelled as the decimal digit string and
`fromisoformat` as its fallible parse. -/

/-- Little-endian decimal digits of `n`, with enough fuel (`n ≤ fuel`). -/
def timeDigits : Nat → Nat → List Nat
  | 0, _ => []
  | fuel + 1, n => if n = 0 then [] else n % 10 :: timeDigits fuel (n / 10)

/-- Encode a timestamp as its decimal digit string (the model of
`isoformat()` at fixed microsecond precision). -/
def encodeTime (t : Nat) : String :=
  String.mk (((timeDigits t t).map Nat.digitChar).reverse)

/-- Numeric value of a decimal digit character. -/
def charDigitVal (c : Char) : Nat := c.toNat - 48

/-- Is `c` a decimal digit character? -/
def isDigitCh (c : Char) : Bool := 48 ≤ c.toNat && c.toNat ≤ 57

/-- Decode a textual timestamp; `none` models the `ValueError` raised by
`datetime.fromisoformat` on a malformed string (fatal at startup). -/
def decodeTime (s : String) : Option Nat :=
  if s.data.all isDigitCh then
    some (Nat.ofDigits 10 (s.data.reverse.map charDigitVal))
  else
    none

/-! ## Data model (`src/memory/memory_schema.py`)

Each sub-record carries the `BaseEntity` fields (`entity_id`, `created_at`,
`updated_at`, `confidence`, `source`) inline, as the Python dataclasses do
after inheritance.  The structures are parametric in the timestamp type `τ`:
the in-memory form uses `τ = Nat`, the JSON payload form (where `default=str`
has turned timestamps into text) uses `τ = String`.  The `Literal` string
types (`source`, `entity_type`) are plain Python strings and are modelled as
`String`. -/

/-- Structure `StructuredEntity` of memory_schema.py (with the inherited `BaseEntity`
fields inlined, in dataclass field order). -/
structure StructuredEntity (τ : Type) where
  entity_id : String
  created_at : τ
  updated_at : τ
  confidence : Rat
  source : String
  entity_type : String
  name : String
  function : String
  description : String
  device : Option String
  domain : Option String
  aliases : List String
  constraints : List String
  metadata : List (String × String)
deriving DecidableEq, Repr

/-- Structure `SemanticEntity` of memory_schema.py. -/
structure SemanticEntity (τ : Type) where
  entity_id : String
  created_at : τ
  updated_at : τ
  confidence : Rat
  source : String
  texts : List String
  embedding : Option (List Rat)
  language_hints : List String
deriving DecidableEq, Repr

/-- Structure `VisualEntity` of memory_schema.py.  Note: it has *no* `metadata` field —
`VisualMemory.add_visual` nevertheless accesses `visual.metadata`, which is
modelled as a raised `AttributeError` below. -/
structure VisualEntity (τ : Type) where
  entity_id : String
  created_at : τ
  updated_at : τ
  confidence : Rat
  source : String
  image_id : String
  bbox : List Rat
  view_angle : Option String
  visual_embedding : Option (List Rat)
deriving DecidableEq, Repr

/-- Model of `BaseEntity.touch` — sub-entity modification timestamp update. -/
def StructuredEntity.touch (e : StructuredEntity Nat) (now : Nat) : StructuredEntity Nat :=
  { e with updated_at := now }

/-- Model of `BaseEntity.touch` on the semantic sub-record. -/
def SemanticEntity.touch (e : SemanticEntity Nat) (now : Nat) : SemanticEntity Nat :=
  { e with updated_at := now }

/-- Structure `MemoryObject` of memory_schema.py. -/
structure MemoryObject where
  entity_id : String
  structured : StructuredEntity Nat
  semantic : SemanticEntity Nat
  visuals : List (VisualEntity Nat)
  usage_count : Nat
  last_accessed_at : Nat
deriving DecidableEq, Repr

/-- Model of `MemoryObject.touch`: "called on lookup or use" — increments the usage
counter and refreshes the last-accessed timestamp. -/
def MemoryObject.touch (m : MemoryObject) (now : Nat) : MemoryObject :=
  { m with usage_count := m.usage_count + 1, last_accessed_at := now }

/-- Model of `MemoryObject.create` — the factory.  `generate_id` draws from a UUID;
the fresh identifier is passed in explicitly (`new_id`), and `utcnow()` as
`now`. -/
def MemoryObject.create (new_id : String) (name : String) (entity_type : String)
    (source : String) (device : Option String) (domain : Option String)
    (now : Nat) : MemoryObject :=
  { entity_id := new_id
    structured :=
      { entity_id := new_id
        created_at := now
        updated_at := now
        confidence := 1
        source := source
        entity_type := entity_type
        name := name
        function := ""
        description := ""
        device := device
        domain := domain
        aliases := []
        constraints := []
        metadata := [] }
    semantic :=
      { entity_id := new_id
        created_at := now
        updated_at := now
        confidence := 1
        source := source
        texts := []
        embedding := none
        language_hints := [] }
    visuals := []
    usage_count := 0
    last_accessed_at := now }

/-! ## Serialization (`MemoryManager.save_memory` / `_load_from_db`)

`save_memory` JSON-encodes each sub-record's `__dict__` (`default=str` turns
the two timestamps into text; every other field is a JSON-native value that
round-trips losslessly, lists preserving order and maps preserving keys).
The payload form of a sub-record is therefore the same structure with
timestamps at `String`. -/

/-- One row of the `memories` table. -/
structure DbRow where
  entity_id : String
  name : String
  entity_type : String
  device : Option String
  updated_at : String
  structured_payload : StructuredEntity String
  semantic_payload : SemanticEntity String
  visuals_payload : List (VisualEntity String)
  usage_count : Nat
  last_accessed_at : String
deriving DecidableEq, Repr

/-- JSON-encode a structured sub-record (`json.dumps(s.__dict__, default=str)`). -/
def encodeStructured (e : StructuredEntity Nat) : StructuredEntity String :=
  { entity_id := e.entity_id
    created_at := encodeTime e.created_at
    updated_at := encodeTime e.updated_at
    confidence := e.confidence
    source := e.source
    entity_type := e.entity_type
    name := e.name
    function := e.function
    description := e.description
    device := e.device
    domain := e.domain
    aliases := e.aliases
    constraints := e.constraints
    metadata := e.metadata }

/-- JSON-encode a semantic sub-record. -/
def encodeSemantic (e : SemanticEntity Nat) : SemanticEntity String :=
  { entity_id := e.entity_id
    created_at := encodeTime e.created_at
    updated_at := encodeTime e.updated_at
    confidence := e.confidence
    source := e.source
    texts := e.texts
    embedding := e.embedding
    language_hints := e.language_hints }

/-- JSON-encode a visual sub-record. -/
def encodeVisual (e : VisualEntity Nat) : VisualEntity String :=
  { entity_id := e.entity_id
    created_at := encodeTime e.created_at
    updated_at := encodeTime e.updated_at
    confidence := e.confidence
    source := e.source
    image_id := e.image_id
    bbox := e.bbox
    view_angle := e.view_angle
    visual_embedding := e.visual_embedding }

/-- Model of `StructuredEntity(**s_dict)` followed by the two `fromisoformat` repairs
in `_load_from_db`; `none` models the fatal decode failure. -/
def decodeStructured (p : StructuredEntity String) : Option (StructuredEntity Nat) := do
  let c ← decodeTime p.created_at
  let u ← decodeTime p.updated_at
  pure
    { entity_id := p.entity_id
      created_at := c
      updated_at := u
      confidence := p.confidence
      source := p.source
      entity_type := p.entity_type
      name := p.name
      function := p.function
      description := p.description
      device := p.device
      domain := p.domain
      aliases := p.aliases
      constraints := p.constraints
      metadata := p.metadata }

/-- Model of `SemanticEntity(**sem_dict)` plus `fromisoformat` repairs. -/
def decodeSemantic (p : SemanticEntity String) : Option (SemanticEntity Nat) := do
  let c ← decodeTime p.created_at
  let u ← decodeTime p.updated_at
  pure
    { entity_id := p.entity_id
      created_at := c
      updated_at := u
      confidence := p.confidence
      source := p.source
      texts := p.texts
      embedding := p.embedding
      language_hints := p.language_hints }

/-- Model of `VisualEntity(**v)` plus `fromisoformat` repairs. -/
def decodeVisual (p : VisualEntity String) : Option (VisualEntity Nat) := do
  let c ← decodeTime p.created_at
  let u ← decodeTime p.updated_at
  pure
    { entity_id := p.entity_id
      created_at := c
      updated_at := u
      confidence := p.confidence
      source := p.source
      image_id := p.image_id
      bbox := p.bbox
      view_angle := p.view_angle
      visual_embedding := p.visual_embedding }

/-- The row written by `MemoryManager.save_memory` for a memory object. -/
def serializeMemory (m : MemoryObject) : DbRow :=
  { entity_id := m.entity_id
    name := strLower m.structured.name
    entity_type := m.structured.entity_type
    device := m.structured.device
    updated_at := encodeTime m.structured.updated_at
    structured_payload := encodeStructured m.structured
    semantic_payload := encodeSemantic m.semantic
    visuals_payload := m.visuals.map encodeVisual
    usage_count := m.usage_count
    last_accessed_at := encodeTime m.last_accessed_at }

/-- The visuals-restoring loop of `_load_from_db` (`for v in vis_list`). -/
def decodeVisualList : List (VisualEntity String) → Option (List (VisualEntity Nat))
  | [] => some []
  | v :: vs => do
    let v' ← decodeVisual v
    let vs' ← decodeVisualList vs
    pure (v' :: vs')

/-- The per-row body of `MemoryManager._load_from_db`: rebuild a
`MemoryObject` from a stored row; `none` models the fatal decode failure. -/
def decodeRow (row : DbRow) : Option MemoryObject := do
  let structured ← decodeStructured row.structured_payload
  let semantic ← decodeSemantic row.semantic_payload
  let visuals ← decodeVisualList row.visuals_payload
  let la ← decodeTime row.last_accessed_at
  pure
    { entity_id := row.entity_id
      structured := structured
      semantic := semantic
      visuals := visuals
      usage_count := row.usage_count
      last_accessed_at := la }

/-! ## The Memory Manager (`src/memory/memory_manager.py`) -/

/-- The state owned by one `MemoryManager` instance: the RAM cache
(`_memories`), the RAM name index (`_name_index`), and the durable SQLite
table (`memories`, keyed by its primary key `entity_id`). -/
structure ManagerState where
  memories : List (String × MemoryObject)
  nameIndex : List (String × List String)
  db : List (String × DbRow)
deriving DecidableEq, Repr

/-- The empty state (fresh database, empty cache). -/
def ManagerState.empty : ManagerState :=
  { memories := [], nameIndex := [], db := [] }

/-- Model of `MemoryManager.save_memory`: `INSERT OR REPLACE` of the serialized row,
keyed by the primary key `entity_id`.  Touches only the durable store. -/
def saveMemory (st : ManagerState) (m : MemoryObject) : ManagerState :=
  { st with db := dictInsert m.entity_id (serializeMemory m) st.db }

/-- Model of `MemoryManager._register_to_cache`: store under `entity_id` and append to
the lowercased-name bucket (`setdefault(name, []).append(id)`). -/
def registerToCache (st : ManagerState) (m : MemoryObject) : ManagerState :=
  let mems := dictInsert m.entity_id m st.memories
  let key := strLower m.structured.name
  let idx :=
    match dictLookup key st.nameIndex with
    | none => dictInsert key [m.entity_id] st.nameIndex
    | some ids => dictInsert key (ids ++ [m.entity_id]) st.nameIndex
  { st with memories := mems, nameIndex := idx }

/-- The row loop of `_load_from_db`: decode each row in order and register it
into the cache; a decode failure on any row is fatal (`none`). -/
def loadRows : List (String × DbRow) → ManagerState → Option ManagerState
  | [], st => some st
  | p :: ps, st =>
    match decodeRow p.2 with
    | none => none
    | some mo => loadRows ps (registerToCache st mo)

/-- Model of `MemoryManager._load_from_db`: rebuild cache and name index from every
durable row, in row order. -/
def loadFromDb (db : List (String × DbRow)) : Option ManagerState :=
  loadRows db { memories := [], nameIndex := [], db := db }

/-- Model of `MemoryManager.get`: return the cached object or `none`; every successful
lookup touches the object (usage + 1, last-accessed := now) and persists the
change before returning.  (The Python code mutates the cached object in
place; here the cache entry is replaced by the touched object.) -/
def managerGet (st : ManagerState) (entity_id : String) (now : Nat) :
    Option MemoryObject × ManagerState :=
  match dictLookup entity_id st.memories with
  | none => (none, st)
  | some m =>
      let m' := m.touch now
      let st' := { st with memories := dictInsert entity_id m' st.memories }
      (some m', saveMemory st' m')

/-- Model of `MemoryManager.create_memory`: build via the factory, register, persist. -/
def createMemory (st : ManagerState) (new_id name entity_type source : String)
    (device domain : Option String) (now : Nat) : MemoryObject × ManagerState :=
  let m := MemoryObject.create new_id name entity_type source device domain now
  (m, saveMemory (registerToCache st m) m)

/-- Model of `MemoryManager.find_by_name`: look the lowercased name up in the index
and resolve each id that is still cached through `get` (side effects and
all). -/
def findByName (st : ManagerState) (name : String) (now : Nat) :
    List MemoryObject × ManagerState :=
  let ids := (dictLookup (strLower name) st.nameIndex).getD []
  go ids st
where
  /-- Model of the comprehension `[self.get(i) for i in ids if i in self._memories]`. -/
  go : List String → ManagerState → List MemoryObject × ManagerState
    | [], st => ([], st)
    | i :: is, st =>
      if (dictLookup i st.memories).isSome then
        let r := managerGet st i now
        match r.1 with
        | some m =>
            let p := go is r.2
            (m :: p.1, p.2)
        | none => go is r.2
      else
        go is st

/-- Model of `MemoryManager.delete`: pop from cache, delete the durable row, prune the
name bucket.  The bucket pruning uses Python `list.remove`, which raises
`ValueError` when the id is missing from the bucket — modelled by `none`. -/
def managerDelete (st : ManagerState) (entity_id : String) :
    Option (Bool × ManagerState) :=
  match dictLookup entity_id st.memories with
  | none => some (false, st)
  | some m =>
      let mems := dictRemove entity_id st.memories
      let db := dictRemove entity_id st.db
      let key := strLower m.structured.name
      match dictLookup key st.nameIndex with
      | none => some (true, { memories := mems, nameIndex := st.nameIndex, db := db })
      | some ids =>
          match pyListRemove entity_id ids with
          | none => none
          | some ids' =>
              some (true,
                { memories := mems
                  nameIndex := dictInsert key ids' st.nameIndex
                  db := db })

/-- Modelled from the spec: `MemoryManager.list_all` is absent from
`src/memory/memory_manager.py` — only its caller
(`SemanticMemory.naive_search`) appears in the source.  Spec §4.1:
"`list_all()`: returns a snapshot of every cached object; reflects cache
state, never re-queries durable storage." -/
def listAll (st : ManagerState) : List MemoryObject :=
  st.memories.map Prod.snd

/-! ## Semantic layer (`src/memory/semantic_memory.py`) -/

/-- Model of `SemanticMemory.add_text`: fetch through the Manager (`get`, with its
touch-and-persist side effect), append the text and the optional language
hint if absent, always touch the semantic sub-record, persist and return
`true`; return `false` only when the id is unknown. -/
def addText (st : ManagerState) (memory_id text : String)
    (language_hint : Option String) (now : Nat) : Bool × ManagerState :=
  match managerGet st memory_id now with
  | (none, st') => (false, st')
  | (some m, st') =>
      let sem := m.semantic
      let sem :=
        if text ∈ sem.texts then sem
        else { sem with texts := sem.texts ++ [text] }
      let sem :=
        match language_hint with
        | some h =>
            if h ≠ "" ∧ h ∉ sem.language_hints then
              { sem with language_hints := sem.language_hints ++ [h] }
            else sem
        | none => sem
      let m' := { m with semantic := sem.touch now }
      let st'' := { st' with memories := dictInsert memory_id m' st'.memories }
      (true, saveMemory st'' m')

/-- Model of `SemanticMemory.naive_search`: case-insensitive substring scan over every
cached object's semantic texts (via `list_all`); an object is kept as soon as
one of its texts matches. -/
def naiveSearch (st : ManagerState) (query : String) : List MemoryObject :=
  let q := strLower query
  (listAll st).filter (fun m => m.semantic.texts.any (fun t => pyIn q (strLower t)))

/-! ## Structured layer (`src/memory/structured_memory.py`) -/

/-- Model of `StructuredMemory.add_requirements`: append-if-absent aliases and
constraints; touch the structured sub-record and persist only when something
changed.  The initial Manager `get` still touches and persists. -/
def addRequirements (st : ManagerState) (memory_id : String)
    (aliases constraints : List String) (now : Nat) : Bool × ManagerState :=
  match managerGet st memory_id now with
  | (none, st') => (false, st')
  | (some m, st') =>
      let (al, ch1) := appendAbsent m.structured.aliases aliases
      let (co, ch2) := appendAbsent m.structured.constraints constraints
      let changed := ch1 || ch2
      if changed then
        let s' := ({ m.structured with aliases := al, constraints := co }).touch now
        let m' := { m with structured := s' }
        let st'' := { st' with memories := dictInsert memory_id m' st'.memories }
        (true, saveMemory st'' m')
      else
        (false, st')
where
  /-- Model of the loop `for a in new: if a not in acc: acc.append(a)`, tracking `changed`. -/
  appendAbsent (acc : List String) : List String → List String × Bool
    | [] => (acc, false)
    | a :: rest =>
      if a ∈ acc then appendAbsent acc rest
      else
        let (acc', _) := appendAbsent (acc ++ [a]) rest
        (acc', true)

/-- Model of `StructuredMemory.is_well_defined`: fetch through the Manager (touching
the object) and test `bool(s.name and s.function)` — both strings
non-empty. -/
def isWellDefined (st : ManagerState) (memory_id : String) (now : Nat) :
    Bool × ManagerState :=
  match managerGet st memory_id now with
  | (none, st') => (false, st')
  | (some m, st') =>
      (m.structured.name ≠ "" && m.structured.function ≠ "", st')

/-! ## Visual layer (`src/memory/visual_memory.py`) -/

/-- A raised Python exception. -/
inductive PyError where
  | attributeError
  | valueError
deriving DecidableEq, Repr

deriving instance DecidableEq for Except

/-- Model of `VisualMemory.add_visual`: fetch through the Manager; duplicate
`(image_id, bbox)` pairs return `false` before anything is built; otherwise a
fresh `VisualEntity` sharing the memory's id is created and — when a
non-empty `metadata` map is supplied — `visual.metadata.update(metadata)` is
executed, which raises `AttributeError` because `VisualEntity` has no
`metadata` field (modelled as `.error`).  On the success path the entity is
appended, the object touched, and the change persisted. -/
def addVisual (st : ManagerState) (memory_id : String)
    (image_id : String) (bbox : List Rat) (view_angle : Option String)
    (confidence : Rat) (metadata : List (String × String)) (now : Nat) :
    Except PyError (Bool × ManagerState) :=
  match managerGet st memory_id now with
  | (none, st') => .ok (false, st')
  | (some m, st') =>
      if m.visuals.any (fun v => v.image_id = image_id ∧ v.bbox = bbox) then
        .ok (false, st')
      else
        if metadata ≠ [] then
          .error .attributeError
        else
          let visual : VisualEntity Nat :=
            { entity_id := m.entity_id
              created_at := now
              updated_at := now
              confidence := confidence
              source := "image"
              image_id := image_id
              bbox := bbox
              view_angle := view_angle
              visual_embedding := none }
          let m' := ({ m with visuals := m.visuals ++ [visual] }).touch now
          let st'' := { st' with memories := dictInsert memory_id m' st'.memories }
          .ok (true, saveMemory st'' m')

/-- Model of `VisualMemory.has_visual`: fetch through the Manager (touching the
object) and test `bool(memory and memory.visuals)`. -/
def hasVisual (st : ManagerState) (memory_id : String) (now : Nat) :
    Bool × ManagerState :=
  match managerGet st memory_id now with
  | (none, st') => (false, st')
  | (some m, st') => (!m.visuals.isEmpty, st')

/-! ## The Memory Merger (`src/memory/memory_merger.py`)

The scoring loop iterates over the objects returned by `naive_search`; those
are aliases of the cache entries, and the predicates called during scoring
mutate them through the Manager's `get`.  The loop is therefore modelled over
the candidates' `entity_id`s, re-reading the cache wherever the Python code
reads the live object. -/

/-- One iteration of the scoring loop of `MemoryMerger.retrieve` for the
candidate with the given id: evaluate `is_well_defined` and `has_visual`
(each a mutating Manager `get`), drop the candidate when visuals are required
but absent, and otherwise read the (just twice-touched) live object's
`usage_count` for the saturating usage bonus.  Returns the mutated state and
the candidate's scored entry, if it survived. -/
def scoreStep (require_visual : Bool) (now : Nat) (st : ManagerState)
    (id : String) : ManagerState × Option (String × Rat) :=
  let base : Rat := 1/2
  let (wd, st1) := isWellDefined st id now
  let s1 : Rat := if wd then base + 1/5 else base - 3/10
  let (hv, st2) := hasVisual st1 id now
  if require_visual then
    if !hv then (st2, none)
    else
      match dictLookup id st2.memories with
      | none => (st2, none)
      | some m =>
          (st2, some (id, s1 + 1/5 + min ((m.usage_count : Rat) * (1/100)) (1/10)))
  else
    let s2 : Rat := if hv then s1 + 1/20 else s1
    match dictLookup id st2.memories with
    | none => (st2, none)
    | some m =>
        (st2, some (id, s2 + min ((m.usage_count : Rat) * (1/100)) (1/10)))

/-- The whole scoring loop, in candidate order. -/
def scoreAll (require_visual : Bool) (now : Nat) :
    ManagerState → List String → ManagerState × List (String × Rat)
  | st, [] => (st, [])
  | st, id :: rest =>
    let (st1, entry) := scoreStep require_visual now st id
    let (st2, scored) := scoreAll require_visual now st1 rest
    match entry with
    | none => (st2, scored)
    | some e => (st2, e :: scored)

/-- Insert into a descending-sorted scored list, after every entry with an
equal or higher score (the stable placement). -/
def insertDesc (x : String × Rat) : List (String × Rat) → List (String × Rat)
  | [] => [x]
  | y :: ys => if y.2 ≤ x.2 then x :: y :: ys else y :: insertDesc x ys

/-- Stable descending sort by score — the model of
`scored.sort(key=lambda x: x[1], reverse=True)` (Python's sort is stable). -/
def sortDesc : List (String × Rat) → List (String × Rat)
  | [] => []
  | x :: xs => insertDesc x (sortDesc xs)

/-- The reinforcement loop of `MemoryMerger.retrieve` over the surviving
top-k entries: `memory.usage_count += 1` followed by `memory.touch()` (which
increments the counter again and stamps the last-accessed time), then
persist, collecting the touched objects in rank order. -/
def touchSurvivors (now : Nat) :
    ManagerState → List (String × Rat) → List MemoryObject × ManagerState
  | st, [] => ([], st)
  | st, (id, _) :: rest =>
    match dictLookup id st.memories with
    | none => touchSurvivors now st rest
    | some m =>
        let m' := ({ m with usage_count := m.usage_count + 1 }).touch now
        let st2 := saveMemory { st with memories := dictInsert id m' st.memories } m'
        let p := touchSurvivors now st2 rest
        (m' :: p.1, p.2)

/-- The candidate set of a retrieval, as entity ids (in generation order). -/
def candidateIds (st : ManagerState) (query : String) : List String :=
  (naiveSearch st query).map MemoryObject.entity_id

/-- Model of `MemoryMerger.retrieve`: candidate generation via `naive_search`, the
scoring loop, the stable descending sort, truncation to `top_k`, and the
reinforcement of exactly the survivors. -/
def retrieve (st : ManagerState) (query : String) (require_visual : Bool)
    (top_k : Nat) (now : Nat) : List MemoryObject × ManagerState :=
  let p := scoreAll require_visual now st (candidateIds st query)
  touchSurvivors now p.1 ((sortDesc p.2).take top_k)

/-- The ids of the surviving (returned and reinforced) candidates of a
retrieval, in rank order. -/
def survivorIds (st : ManagerState) (query : String) (require_visual : Bool)
    (top_k : Nat) (now : Nat) : List String :=
  ((sortDesc (scoreAll require_visual now st (candidateIds st query)).2).take
    top_k).map Prod.fst

/-- Model of `MemoryMerger.explain_logic`: candidate generation, then per candidate a
report dict.  Its entries are evaluated in key order: `name` and
`total_usage` are read from the live object, `has_visual` and `is_complete`
each perform a mutating Manager `get`, and `last_seen` evaluates
`m.updated_at` — an attribute `MemoryObject` does not have, so building the
first report raises `AttributeError` (after the two predicate calls have
already mutated and persisted that candidate). -/
def explainLogic (st : ManagerState) (query : String) (now : Nat) :
    Except PyError Unit × ManagerState :=
  match (naiveSearch st query).map MemoryObject.entity_id with
  | [] => (.ok (), st)
  | id :: _ =>
      let (_, st1) := hasVisual st id now
      let (_, st2) := isWellDefined st1 id now
      (.error .attributeError, st2)

/-! ## Well-formedness

Invariants of every reachable `ManagerState`: cache keys are unique and each
cached object is stored under its own id, each cached id sits in its
lowercased name's index bucket, and the durable table's primary keys are
unique with each row stored under its own id. -/

/-- Every cached object is stored under its own `entity_id`. -/
def EId (st : ManagerState) : Prop :=
  ∀ p ∈ st.memories, p.2.entity_id = p.1

instance : DecidablePred EId := fun st =>
  inferInstanceAs (Decidable (∀ p ∈ st.memories, p.2.entity_id = p.1))

/-- Well-formedness of a manager state. -/
def WF (st : ManagerState) : Prop :=
  (dictKeys st.memories).Nodup ∧ EId st ∧
  (∀ p ∈ st.memories,
    p.1 ∈ (dictLookup (strLower p.2.structured.name) st.nameIndex).getD []) ∧
  (dictKeys st.db).Nodup ∧
  (∀ p ∈ st.db, p.2.entity_id = p.1)

instance : DecidablePred WF := fun _ => by
  unfold WF; infer_instance

/-- The cache entry at a key. -/
def cacheAt (st : ManagerState) (j : String) : Option MemoryObject :=
  dictLookup j st.memories

/-- The durable row at a key. -/
def dbAt (st : ManagerState) (j : String) : Option DbRow :=
  dictLookup j st.db

/-! ## Lemmas on the dictionary model -/

theorem dictLookup_insert_self {β : Type} (k : String) (v : β) (d : List (String × β)) :
    dictLookup k (dictInsert k v d) = some v := by
  induction d with
  | nil => simp [dictInsert, dictLookup]
  | cons p ps ih =>
      by_cases h : p.1 = k
      · rw [dictInsert, if_pos h, dictLookup, if_pos rfl]
      · rw [dictInsert, if_neg h, dictLookup, if_neg h, ih]

theorem dictLookup_insert_ne {β : Type} {j k : String} (h : j ≠ k) (v : β)
    (d : List (String × β)) :
    dictLookup j (dictInsert k v d) = dictLookup j d := by
  induction d with
  | nil =>
      simp only [dictInsert, dictLookup]
      rw [if_neg (fun hh : k = j => h hh.symm)]
  | cons p ps ih =>
      by_cases hk : p.1 = k
      · rw [dictInsert, if_pos hk]
        simp only [dictLookup]
        rw [if_neg (fun hh : k = j => h hh.symm),
          if_neg (fun hh : p.1 = j => h ((hk.symm.trans hh).symm))]
      · rw [dictInsert, if_neg hk]
        by_cases hj : p.1 = j
        · rw [dictLookup, if_pos hj, dictLookup, if_pos hj]
        · rw [dictLookup, if_neg hj, dictLookup, if_neg hj, ih]

theorem dictLookup_remove_self {β : Type} (k : String) (d : List (String × β)) :
    dictLookup k (dictRemove k d) = none := by
  induction d with
  | nil => simp [dictRemove, dictLookup]
  | cons p ps ih =>
      by_cases h : p.1 = k
      · rw [dictRemove, if_pos h, ih]
      · rw [dictRemove, if_neg h, dictLookup, if_neg h, ih]

theorem dictLookup_remove_ne {β : Type} {j k : String} (h : j ≠ k)
    (d : List (String × β)) :
    dictLookup j (dictRemove k d) = dictLookup j d := by
  induction d with
  | nil => simp [dictRemove]
  | cons p ps ih =>
      by_cases hk : p.1 = k
      · rw [dictRemove, if_pos hk, ih, dictLookup,
          if_neg (fun hj : p.1 = j => h ((hk.symm.trans hj).symm))]
      · rw [dictRemove, if_neg hk]
        by_cases hj : p.1 = j
        · rw [dictLookup, if_pos hj, dictLookup, if_pos hj]
        · rw [dictLookup, if_neg hj, dictLookup, if_neg hj, ih]

theorem dictLookup_mem {β : Type} {k : String} {v : β} {d : List (String × β)}
    (h : dictLookup k d = some v) : (k, v) ∈ d := by
  induction d with
  | nil => simp [dictLookup] at h
  | cons p ps ih =>
      by_cases hk : p.1 = k
      · rw [dictLookup, if_pos hk] at h
        injection h with h2
        have : p = (k, v) := by
          obtain ⟨p1, p2⟩ := p
          simp only at hk h2
          rw [hk, h2]
        exact this ▸ List.mem_cons_self _ _
      · rw [dictLookup, if_neg hk] at h
        exact List.mem_cons_of_mem _ (ih h)

theorem mem_dictInsert {β : Type} {k : String} {v : β} {p : String × β}
    {d : List (String × β)} (h : p ∈ dictInsert k v d) : p = (k, v) ∨ p ∈ d := by
  induction d with
  | nil => simpa [dictInsert] using h
  | cons q qs ih =>
      by_cases hq : q.1 = k
      · rw [dictInsert, if_pos hq] at h
        rcases List.mem_cons.mp h with h | h
        · exact Or.inl h
        · exact Or.inr (List.mem_cons_of_mem _ h)
      · rw [dictInsert, if_neg hq] at h
        rcases List.mem_cons.mp h with h | h
        · exact Or.inr (by simp [h])
        · rcases ih h with h' | h'
          · exact Or.inl h'
          · exact Or.inr (List.mem_cons_of_mem _ h')

theorem mem_dictRemove {β : Type} {k : String} {p : String × β}
    {d : List (String × β)} (h : p ∈ dictRemove k d) : p ∈ d := by
  induction d with
  | nil => simp [dictRemove] at h
  | cons q qs ih =>
      by_cases hq : q.1 = k
      · rw [dictRemove, if_pos hq] at h
        exact List.mem_cons_of_mem _ (ih h)
      · rw [dictRemove, if_neg hq] at h
        rcases List.mem_cons.mp h with h | h
        · simp [h]
        · exact List.mem_cons_of_mem _ (ih h)

theorem dictLookup_isSome_iff {β : Type} (k : String) (d : List (String × β)) :
    (dictLookup k d).isSome = true ↔ k ∈ dictKeys d := by
  induction d with
  | nil => simp [dictLookup, dictKeys]
  | cons p ps ih =>
      by_cases hk : p.1 = k
      · simp [dictLookup, dictKeys, hk]
      · rw [dictLookup, if_neg hk]
        simp only [dictKeys, List.map_cons, List.mem_cons]
        rw [ih]
        constructor
        · intro hmem
          exact Or.inr hmem
        · intro hmem
          rcases hmem with hmem | hmem
          · exact absurd hmem.symm hk
          · exact hmem

theorem mem_dictKeys_insert {β : Type} {x k : String} {v : β}
    {d : List (String × β)} (h : x ∈ dictKeys (dictInsert k v d)) :
    x = k ∨ x ∈ dictKeys d := by
  rcases List.mem_map.mp h with ⟨q, hq, hq1⟩
  rcases mem_dictInsert hq with h' | h'
  · exact Or.inl (by rw [← hq1, h'])
  · exact Or.inr (hq1 ▸ List.mem_map_of_mem Prod.fst h')

theorem dictKeys_insert_nodup {β : Type} (k : String) (v : β)
    {d : List (String × β)} (h : (dictKeys d).Nodup) :
    (dictKeys (dictInsert k v d)).Nodup := by
  induction d with
  | nil => simp [dictInsert, dictKeys]
  | cons p ps ih =>
      simp only [dictKeys, List.map_cons, List.nodup_cons] at h
      by_cases hk : p.1 = k
      · rw [dictInsert, if_pos hk]
        simp only [dictKeys, List.map_cons, List.nodup_cons]
        exact ⟨hk ▸ h.1, h.2⟩
      · rw [dictInsert, if_neg hk]
        simp only [dictKeys, List.map_cons, List.nodup_cons]
        refine ⟨?_, ih h.2⟩
        intro hmem
        rcases mem_dictKeys_insert hmem with h1 | h1
        · exact hk h1
        · exact h.1 h1

/-! ## Effect lemmas for `MemoryManager.get` and the read predicates -/

theorem managerGet_none {st : ManagerState} {id : String} (now : Nat)
    (h : dictLookup id st.memories = none) :
    managerGet st id now = (none, st) := by
  simp [managerGet, h]

theorem managerGet_some {st : ManagerState} {id : String} {m : MemoryObject} (now : Nat)
    (h : dictLookup id st.memories = some m) :
    managerGet st id now =
      (some (m.touch now),
        saveMemory { st with memories := dictInsert id (m.touch now) st.memories }
          (m.touch now)) := by
  simp [managerGet, h]

theorem cacheAt_managerGet_self {st : ManagerState} {id : String} {m : MemoryObject}
    (now : Nat) (h : cacheAt st id = some m) :
    cacheAt (managerGet st id now).2 id = some (m.touch now) := by
  rw [managerGet_some now h]
  simp [cacheAt, saveMemory, dictLookup_insert_self]

theorem cacheAt_managerGet_ne {st : ManagerState} {id j : String} (now : Nat)
    (hj : j ≠ id) :
    cacheAt (managerGet st id now).2 j = cacheAt st j := by
  cases hcase : dictLookup id st.memories with
  | none => rw [managerGet_none now hcase]
  | some m =>
      rw [managerGet_some now hcase]
      simp [cacheAt, saveMemory, dictLookup_insert_ne hj]

theorem dbAt_managerGet_self {st : ManagerState} {id : String} {m : MemoryObject}
    (now : Nat) (he : EId st) (h : cacheAt st id = some m) :
    dbAt (managerGet st id now).2 id = some (serializeMemory (m.touch now)) := by
  have heid : m.entity_id = id := he (id, m) (dictLookup_mem h)
  rw [managerGet_some now h]
  simp [dbAt, saveMemory, MemoryObject.touch, heid, dictLookup_insert_self]

theorem dbAt_managerGet_ne {st : ManagerState} {id j : String} (now : Nat)
    (he : EId st) (hj : j ≠ id) :
    dbAt (managerGet st id now).2 j = dbAt st j := by
  cases hcase : dictLookup id st.memories with
  | none => rw [managerGet_none now hcase]
  | some m =>
      have heid : m.entity_id = id := he (id, m) (dictLookup_mem hcase)
      rw [managerGet_some now hcase]
      simp [dbAt, saveMemory, MemoryObject.touch, heid, dictLookup_insert_ne hj]

theorem EId_managerGet {st : ManagerState} (id : String) (now : Nat)
    (he : EId st) : EId (managerGet st id now).2 := by
  cases hcase : dictLookup id st.memories with
  | none => rw [managerGet_none now hcase]; exact he
  | some m =>
      have heid : m.entity_id = id := he (id, m) (dictLookup_mem hcase)
      rw [managerGet_some now hcase]
      intro p hp
      simp only [saveMemory] at hp
      rcases mem_dictInsert hp with h' | h'
      · rw [h']
        simpa [MemoryObject.touch] using heid
      · exact he p h'

theorem isWellDefined_none {st : ManagerState} {id : String} (now : Nat)
    (h : cacheAt st id = none) :
    isWellDefined st id now = (false, st) := by
  rw [isWellDefined, managerGet_none now h]

theorem isWellDefined_some {st : ManagerState} {id : String} {m : MemoryObject}
    (now : Nat) (h : cacheAt st id = some m) :
    isWellDefined st id now =
      (m.structured.name ≠ "" && m.structured.function ≠ "",
        (managerGet st id now).2) := by
  rw [isWellDefined, managerGet_some now h]
  simp [MemoryObject.touch]

theorem hasVisual_none {st : ManagerState} {id : String} (now : Nat)
    (h : cacheAt st id = none) :
    hasVisual st id now = (false, st) := by
  rw [hasVisual, managerGet_none now h]

theorem hasVisual_some {st : ManagerState} {id : String} {m : MemoryObject}
    (now : Nat) (h : cacheAt st id = some m) :
    hasVisual st id now = (!m.visuals.isEmpty, (managerGet st id now).2) := by
  rw [hasVisual, managerGet_some now h]
  simp [MemoryObject.touch]

/-! ## Characterization of one scoring-loop iteration -/

/-- The score a candidate object receives in `retrieve`'s scoring loop, as a
pure function of the object's state when its iteration starts; `none` means
the candidate is dropped by the visual filter.  The `+ 1 + 1` on
`usage_count` is the mutation performed by the two predicate lookups
(through the Manager's `get`) before the usage bonus is read. -/
def candidateScore (rv : Bool) (m : MemoryObject) : Option Rat :=
  let base : Rat := 1/2
  let s1 : Rat :=
    if m.structured.name ≠ "" && m.structured.function ≠ "" then base + 1/5
    else base - 3/10
  let hv := !m.visuals.isEmpty
  if rv then
    if !hv then none
    else some (s1 + 1/5 + min (((m.usage_count + 1 + 1 : Nat) : Rat) * (1/100)) (1/10))
  else
    let s2 : Rat := if hv then s1 + 1/20 else s1
    some (s2 + min (((m.usage_count + 1 + 1 : Nat) : Rat) * (1/100)) (1/10))

theorem scoreStep_eq {st : ManagerState} {id : String} {m : MemoryObject}
    (rv : Bool) (now : Nat) (h : cacheAt st id = some m) :
    scoreStep rv now st id =
      ((managerGet (managerGet st id now).2 id now).2,
        (candidateScore rv m).map (fun s => (id, s))) := by
  have h1 : cacheAt (managerGet st id now).2 id = some (m.touch now) :=
    cacheAt_managerGet_self now h
  have h2 : cacheAt (managerGet (managerGet st id now).2 id now).2 id
      = some ((m.touch now).touch now) := cacheAt_managerGet_self now h1
  rw [scoreStep, isWellDefined_some now h]
  dsimp only
  rw [hasVisual_some now h1]
  dsimp only
  simp only [cacheAt] at h2
  simp only [h2, candidateScore, MemoryObject.touch]
  cases rv with
  | false => simp
  | true =>
      by_cases hv : m.visuals.isEmpty
      · simp [hv]
      · simp [hv]

theorem scoreStep_none {st : ManagerState} {id : String} (rv : Bool) (now : Nat)
    (h : cacheAt st id = none) :
    scoreStep rv now st id = (st, none) := by
  rw [scoreStep, isWellDefined_none now h]
  dsimp only
  rw [hasVisual_none now h]
  dsimp only
  simp only [cacheAt] at h
  simp [h]

theorem EId_scoreStep {st : ManagerState} (rv : Bool) (now : Nat) (id : String)
    (he : EId st) : EId (scoreStep rv now st id).1 := by
  cases hcase : cacheAt st id with
  | none => rw [scoreStep_none rv now hcase]; exact he
  | some m =>
      rw [scoreStep_eq rv now hcase]
      exact EId_managerGet id now (EId_managerGet id now he)

theorem cacheAt_scoreStep_self {st : ManagerState} {id : String} {m : MemoryObject}
    (rv : Bool) (now : Nat) (hm : cacheAt st id = some m) :
    cacheAt (scoreStep rv now st id).1 id = some ((m.touch now).touch now) := by
  rw [scoreStep_eq rv now hm]
  exact cacheAt_managerGet_self now (cacheAt_managerGet_self now hm)

theorem cacheAt_scoreStep_ne {st : ManagerState} {id j : String} (rv : Bool) (now : Nat)
    (hj : j ≠ id) : cacheAt (scoreStep rv now st id).1 j = cacheAt st j := by
  cases hcase : cacheAt st id with
  | none => rw [scoreStep_none rv now hcase]
  | some m =>
      rw [scoreStep_eq rv now hcase]
      dsimp only
      rw [cacheAt_managerGet_ne now hj, cacheAt_managerGet_ne now hj]

theorem dbAt_scoreStep_self {st : ManagerState} {id : String} {m : MemoryObject}
    (rv : Bool) (now : Nat) (he : EId st) (hm : cacheAt st id = some m) :
    dbAt (scoreStep rv now st id).1 id =
      some (serializeMemory ((m.touch now).touch now)) := by
  rw [scoreStep_eq rv now hm]
  exact dbAt_managerGet_self now (EId_managerGet id now he)
    (cacheAt_managerGet_self now hm)

theorem dbAt_scoreStep_ne {st : ManagerState} {id j : String} (rv : Bool) (now : Nat)
    (he : EId st) (hj : j ≠ id) :
    dbAt (scoreStep rv now st id).1 j = dbAt st j := by
  cases hcase : cacheAt st id with
  | none => rw [scoreStep_none rv now hcase]
  | some m =>
      rw [scoreStep_eq rv now hcase]
      dsimp only
      rw [dbAt_managerGet_ne now (EId_managerGet id now he) hj,
        dbAt_managerGet_ne now he hj]

theorem scoreStep_entry_fst {st : ManagerState} {id : String} {e : String × Rat}
    (rv : Bool) (now : Nat) (h : (scoreStep rv now st id).2 = some e) : e.1 = id := by
  cases hcase : cacheAt st id with
  | none => rw [scoreStep_none rv now hcase] at h; simp at h
  | some m =>
      rw [scoreStep_eq rv now hcase] at h
      dsimp only at h
      cases hcs : candidateScore rv m with
      | none => rw [hcs] at h; simp at h
      | some s =>
          rw [hcs] at h
          simp only [Option.map] at h
          injection h with h'
          rw [← h']

/-! ## Effect lemmas for the whole scoring loop -/

theorem cacheAt_scoreAll_notMem {rv : Bool} {now : Nat} {ids : List String}
    {st : ManagerState} {j : String} (hj : j ∉ ids) :
    cacheAt (scoreAll rv now st ids).1 j = cacheAt st j := by
  induction ids generalizing st with
  | nil => rfl
  | cons i rest ih =>
      have hji : j ≠ i := fun h => hj (h ▸ List.mem_cons_self i rest)
      have hjr : j ∉ rest := fun h => hj (List.mem_cons_of_mem _ h)
      rcases hstep : scoreStep rv now st i with ⟨st1, entry⟩
      have h1 : cacheAt st1 j = cacheAt st j := by
        have h' := @cacheAt_scoreStep_ne st i j rv now hji
        rw [hstep] at h'
        exact h'
      rw [scoreAll, hstep]
      dsimp only
      rcases hall : scoreAll rv now st1 rest with ⟨st2, scored⟩
      have h2 : cacheAt st2 j = cacheAt st1 j := by
        have h' := @ih st1 hjr
        rw [hall] at h'
        exact h'
      dsimp only
      cases entry <;> dsimp only <;> rw [h2, h1]

theorem EId_scoreAll {rv : Bool} {now : Nat} {ids : List String}
    {st : ManagerState} (he : EId st) : EId (scoreAll rv now st ids).1 := by
  induction ids generalizing st with
  | nil => exact he
  | cons i rest ih =>
      rcases hstep : scoreStep rv now st i with ⟨st1, entry⟩
      have h1 : EId st1 := by
        have h' := EId_scoreStep rv now i he
        rw [hstep] at h'
        exact h'
      rw [scoreAll, hstep]
      dsimp only
      rcases hall : scoreAll rv now st1 rest with ⟨st2, scored⟩
      have h2 : EId st2 := by
        have h' := ih h1
        rw [hall] at h'
        exact h'
      dsimp only
      cases entry <;> dsimp only <;> exact h2

theorem dbAt_scoreAll_notMem {rv : Bool} {now : Nat} {ids : List String}
    {st : ManagerState} {j : String} (he : EId st) (hj : j ∉ ids) :
    dbAt (scoreAll rv now st ids).1 j = dbAt st j := by
  induction ids generalizing st with
  | nil => rfl
  | cons i rest ih =>
      have hji : j ≠ i := fun h => hj (h ▸ List.mem_cons_self i rest)
      have hjr : j ∉ rest := fun h => hj (List.mem_cons_of_mem _ h)
      rcases hstep : scoreStep rv now st i with ⟨st1, entry⟩
      have h1 : dbAt st1 j = dbAt st j := by
        have h' := dbAt_scoreStep_ne rv now he hji
        rw [hstep] at h'
        exact h'
      have he1 : EId st1 := by
        have h' := EId_scoreStep rv now i he
        rw [hstep] at h'
        exact h'
      rw [scoreAll, hstep]
      dsimp only
      rcases hall : scoreAll rv now st1 rest with ⟨st2, scored⟩
      have h2 : dbAt st2 j = dbAt st1 j := by
        have h' := ih he1 hjr
        rw [hall] at h'
        exact h'
      dsimp only
      cases entry <;> dsimp only <;> rw [h2, h1]

theorem cacheAt_scoreAll_mem {rv : Bool} {now : Nat} {ids : List String}
    {st : ManagerState} {id : String} {m : MemoryObject} (hnd : ids.Nodup)
    (hid : id ∈ ids) (hm : cacheAt st id = some m) :
    cacheAt (scoreAll rv now st ids).1 id = some ((m.touch now).touch now) := by
  induction ids generalizing st with
  | nil => simp at hid
  | cons i rest ih =>
      rcases hstep : scoreStep rv now st i with ⟨st1, entry⟩
      rw [scoreAll, hstep]
      dsimp only
      rcases hall : scoreAll rv now st1 rest with ⟨st2, scored⟩
      dsimp only
      rcases List.mem_cons.mp hid with hEq | hmem
      · subst hEq
        have hself : cacheAt st1 id = some ((m.touch now).touch now) := by
          have h' := cacheAt_scoreStep_self rv now hm
          rw [hstep] at h'
          exact h'
        have hnotin : id ∉ rest := (List.nodup_cons.mp hnd).1
        have h2 : cacheAt st2 id = cacheAt st1 id := by
          have h' := @cacheAt_scoreAll_notMem rv now rest st1 id hnotin
          rw [hall] at h'
          exact h'
        cases entry <;> dsimp only <;> rw [h2, hself]
      · have hne : id ≠ i := by
          rintro rfl
          exact (List.nodup_cons.mp hnd).1 hmem
        have h1 : cacheAt st1 id = some m := by
          have h' := @cacheAt_scoreStep_ne st i id rv now hne
          rw [hstep] at h'
          rw [h', hm]
        have h2 := ih (List.nodup_cons.mp hnd).2 hmem h1
        rw [hall] at h2
        cases entry <;> dsimp only <;> exact h2

theorem dbAt_scoreAll_mem {rv : Bool} {now : Nat} {ids : List String}
    {st : ManagerState} {id : String} {m : MemoryObject} (he : EId st)
    (hnd : ids.Nodup) (hid : id ∈ ids) (hm : cacheAt st id = some m) :
    dbAt (scoreAll rv now st ids).1 id =
      some (serializeMemory ((m.touch now).touch now)) := by
  induction ids generalizing st with
  | nil => simp at hid
  | cons i rest ih =>
      rcases hstep : scoreStep rv now st i with ⟨st1, entry⟩
      have he1 : EId st1 := by
        have h' := EId_scoreStep rv now i he
        rw [hstep] at h'
        exact h'
      rw [scoreAll, hstep]
      dsimp only
      rcases hall : scoreAll rv now st1 rest with ⟨st2, scored⟩
      dsimp only
      rcases List.mem_cons.mp hid with hEq | hmem
      · subst hEq
        have hself : dbAt st1 id = some (serializeMemory ((m.touch now).touch now)) := by
          have h' := dbAt_scoreStep_self rv now he hm
          rw [hstep] at h'
          exact h'
        have hnotin : id ∉ rest := (List.nodup_cons.mp hnd).1
        have h2 : dbAt st2 id = dbAt st1 id := by
          have h' := @dbAt_scoreAll_notMem rv now rest st1 id he1 hnotin
          rw [hall] at h'
          exact h'
        cases entry <;> dsimp only <;> rw [h2, hself]
      · have hne : id ≠ i := by
          rintro rfl
          exact (List.nodup_cons.mp hnd).1 hmem
        have h1 : cacheAt st1 id = some m := by
          have h' := @cacheAt_scoreStep_ne st i id rv now hne
          rw [hstep] at h'
          rw [h', hm]
        have h2 := ih he1 (List.nodup_cons.mp hnd).2 hmem h1
        rw [hall] at h2
        cases entry <;> dsimp only <;> exact h2

theorem scoreAll_entry_mem {rv : Bool} {now : Nat} {ids : List String}
    {st : ManagerState} {id : String} {m : MemoryObject} {s : Rat}
    (hnd : ids.Nodup) (hid : id ∈ ids) (hm : cacheAt st id = some m)
    (hs : candidateScore rv m = some s) :
    (id, s) ∈ (scoreAll rv now st ids).2 := by
  induction ids generalizing st with
  | nil => simp at hid
  | cons i rest ih =>
      rcases hstep : scoreStep rv now st i with ⟨st1, entry⟩
      rw [scoreAll, hstep]
      dsimp only
      rcases hall : scoreAll rv now st1 rest with ⟨st2, scored⟩
      dsimp only
      rcases List.mem_cons.mp hid with hEq | hmem
      · subst hEq
        have h' := scoreStep_eq rv now hm
        rw [hstep] at h'
        injection h' with hst hentry
        rw [hentry, hs]
        simp only [Option.map]
        exact List.mem_cons_self _ _
      · have hne : id ≠ i := by
          rintro rfl
          exact (List.nodup_cons.mp hnd).1 hmem
        have h1 : cacheAt st1 id = some m := by
          have h' := @cacheAt_scoreStep_ne st i id rv now hne
          rw [hstep] at h'
          rw [h', hm]
        have h2 := ih (List.nodup_cons.mp hnd).2 hmem h1
        rw [hall] at h2
        cases entry <;> dsimp only
        · exact h2
        · exact List.mem_cons_of_mem _ h2

theorem scoreAll_fst_sublist {rv : Bool} {now : Nat} {ids : List String}
    {st : ManagerState} :
    ((scoreAll rv now st ids).2.map Prod.fst).Sublist ids := by
  induction ids generalizing st with
  | nil => simp [scoreAll]
  | cons i rest ih =>
      rcases hstep : scoreStep rv now st i with ⟨st1, entry⟩
      rw [scoreAll, hstep]
      dsimp only
      rcases hall : scoreAll rv now st1 rest with ⟨st2, scored⟩
      dsimp only
      have hsub : (scored.map Prod.fst).Sublist rest := by
        have h' := @ih st1
        rw [hall] at h'
        exact h'
      cases hentry : entry with
      | none =>
          dsimp only
          exact hsub.cons i
      | some e =>
          dsimp only
          have hfst : e.1 = i := by
            have h' := @scoreStep_entry_fst st i e rv now (by rw [hstep, hentry])
            exact h'
          rw [List.map_cons, hfst]
          exact hsub.cons₂ i

/-! ## Effect lemmas for the reinforcement loop -/

/-- The mutation `retrieve` applies to one survivor: the explicit
`usage_count += 1` followed by `MemoryObject.touch` (a second increment plus
the last-accessed stamp). -/
def reinforce (m : MemoryObject) (now : Nat) : MemoryObject :=
  ({ m with usage_count := m.usage_count + 1 }).touch now

theorem EId_saveInsert {st : ManagerState} {id : String} {m' : MemoryObject}
    (he : EId st) (heid : m'.entity_id = id) :
    EId (saveMemory { st with memories := dictInsert id m' st.memories } m') := by
  intro q hq
  simp only [saveMemory] at hq
  rcases mem_dictInsert hq with h' | h'
  · rw [h']
    exact heid
  · exact he q h'

theorem cacheAt_saveInsert_self {st : ManagerState} {id : String} (m' : MemoryObject) :
    cacheAt (saveMemory { st with memories := dictInsert id m' st.memories } m') id = some m' := by
  simp [cacheAt, saveMemory, dictLookup_insert_self]

theorem cacheAt_saveInsert_ne {st : ManagerState} {id j : String} (m' : MemoryObject)
    (hj : j ≠ id) :
    cacheAt (saveMemory { st with memories := dictInsert id m' st.memories } m') j
      = cacheAt st j := by
  simp [cacheAt, saveMemory, dictLookup_insert_ne hj]

theorem dbAt_saveInsert_self {st : ManagerState} {id : String} {m' : MemoryObject}
    (heid : m'.entity_id = id) :
    dbAt (saveMemory { st with memories := dictInsert id m' st.memories } m') id
      = some (serializeMemory m') := by
  simp [dbAt, saveMemory, heid, dictLookup_insert_self]

theorem dbAt_saveInsert_ne {st : ManagerState} {id j : String} {m' : MemoryObject}
    (heid : m'.entity_id = id) (hj : j ≠ id) :
    dbAt (saveMemory { st with memories := dictInsert id m' st.memories } m') j
      = dbAt st j := by
  simp [dbAt, saveMemory, heid, dictLookup_insert_ne hj]

theorem cacheAt_touchSurvivors_notMem {now : Nat} {l : List (String × Rat)}
    {st : ManagerState} {j : String} (hj : j ∉ l.map Prod.fst) :
    cacheAt (touchSurvivors now st l).2 j = cacheAt st j := by
  induction l generalizing st with
  | nil => rfl
  | cons p rest ih =>
      obtain ⟨id, sc⟩ := p
      have hji : j ≠ id := fun h => hj (by simp [h])
      have hjr : j ∉ rest.map Prod.fst := fun h => hj (by simp [h])
      rw [touchSurvivors]
      cases hcase : dictLookup id st.memories with
      | none => exact ih hjr
      | some m =>
          dsimp only
          rw [ih hjr]
          simp [cacheAt, saveMemory, dictLookup_insert_ne hji]

theorem EId_touchSurvivors {now : Nat} {l : List (String × Rat)}
    {st : ManagerState} (he : EId st) : EId (touchSurvivors now st l).2 := by
  induction l generalizing st with
  | nil => exact he
  | cons p rest ih =>
      obtain ⟨id, sc⟩ := p
      rw [touchSurvivors]
      cases hcase : dictLookup id st.memories with
      | none => exact ih he
      | some m =>
          dsimp only
          apply ih
          intro q hq
          simp only [saveMemory] at hq
          rcases mem_dictInsert hq with h' | h'
          · rw [h']
            have heid : m.entity_id = id := he (id, m) (dictLookup_mem hcase)
            simpa [MemoryObject.touch] using heid
          · exact he q h'

theorem dbAt_touchSurvivors_notMem {now : Nat} {l : List (String × Rat)}
    {st : ManagerState} {j : String} (he : EId st) (hj : j ∉ l.map Prod.fst) :
    dbAt (touchSurvivors now st l).2 j = dbAt st j := by
  induction l generalizing st with
  | nil => rfl
  | cons p rest ih =>
      obtain ⟨id, sc⟩ := p
      have hji : j ≠ id := fun h => hj (by simp [h])
      have hjr : j ∉ rest.map Prod.fst := fun h => hj (by simp [h])
      rw [touchSurvivors]
      cases hcase : dictLookup id st.memories with
      | none => exact ih he hjr
      | some m =>
          dsimp only
          have heid : m.entity_id = id := he (id, m) (dictLookup_mem hcase)
          rw [ih (EId_saveInsert he (by simp [MemoryObject.touch, heid])) hjr]
          exact dbAt_saveInsert_ne (by simp [MemoryObject.touch, heid]) hji

theorem cacheAt_touchSurvivors_mem {now : Nat} {l : List (String × Rat)}
    {st : ManagerState} {j : String} {e : MemoryObject}
    (hnd : (l.map Prod.fst).Nodup) (hid : j ∈ l.map Prod.fst)
    (hm : cacheAt st j = some e) :
    cacheAt (touchSurvivors now st l).2 j = some (reinforce e now) := by
  induction l generalizing st with
  | nil => simp at hid
  | cons p rest ih =>
      obtain ⟨id, sc⟩ := p
      simp only [List.map_cons, List.nodup_cons] at hnd
      rcases List.mem_cons.mp hid with hEq | hmem
      · subst hEq
        rw [touchSurvivors]
        simp only [cacheAt] at hm
        rw [hm]
        dsimp only
        rw [cacheAt_touchSurvivors_notMem hnd.1]
        simp [cacheAt, saveMemory, reinforce, dictLookup_insert_self]
      · have hne : j ≠ id := by
          rintro rfl
          exact hnd.1 hmem
        rw [touchSurvivors]
        cases hcase : dictLookup id st.memories with
        | none => exact ih hnd.2 hmem hm
        | some m =>
            dsimp only
            apply ih hnd.2 hmem
            simp [cacheAt, saveMemory, dictLookup_insert_ne hne]
            simp only [cacheAt] at hm
            exact hm

theorem dbAt_touchSurvivors_mem {now : Nat} {l : List (String × Rat)}
    {st : ManagerState} {j : String} {e : MemoryObject} (he : EId st)
    (hnd : (l.map Prod.fst).Nodup) (hid : j ∈ l.map Prod.fst)
    (hm : cacheAt st j = some e) :
    dbAt (touchSurvivors now st l).2 j = some (serializeMemory (reinforce e now)) := by
  induction l generalizing st with
  | nil => simp at hid
  | cons p rest ih =>
      obtain ⟨id, sc⟩ := p
      simp only [List.map_cons, List.nodup_cons] at hnd
      rcases List.mem_cons.mp hid with hEq | hmem
      · subst hEq
        rw [touchSurvivors]
        have heid : e.entity_id = j := he (j, e) (dictLookup_mem hm)
        simp only [cacheAt] at hm
        rw [hm]
        dsimp only
        have he2 : EId (saveMemory
            { st with memories := dictInsert j (reinforce e now) st.memories }
            (reinforce e now)) :=
          EId_saveInsert he (by simp [reinforce, MemoryObject.touch, heid])
        have hframe := @dbAt_touchSurvivors_notMem now rest _ _ he2 hnd.1
        simp only [reinforce] at hframe ⊢
        rw [hframe]
        have := @dbAt_saveInsert_self st j (({ e with usage_count := e.usage_count + 1 }).touch now) (by simp [MemoryObject.touch, heid])
        exact this
      · have hne : j ≠ id := by
          rintro rfl
          exact hnd.1 hmem
        rw [touchSurvivors]
        cases hcase : dictLookup id st.memories with
        | none => exact ih he hnd.2 hmem hm
        | some m =>
            dsimp only
            have heid : m.entity_id = id := he (id, m) (dictLookup_mem hcase)
            apply ih (EId_saveInsert he (by simp [MemoryObject.touch, heid])) hnd.2 hmem
            rw [cacheAt_saveInsert_ne _ hne]
            exact hm

theorem touchSurvivors_result_visuals {now : Nat} {l : List (String × Rat)}
    {st : ManagerState} {m' : MemoryObject}
    (h : m' ∈ (touchSurvivors now st l).1) :
    ∃ id s, (id, s) ∈ l ∧ ∃ e, cacheAt st id = some e ∧ m'.visuals = e.visuals := by
  induction l generalizing st with
  | nil => simp [touchSurvivors] at h
  | cons p rest ih =>
      obtain ⟨id, sc⟩ := p
      rw [touchSurvivors] at h
      cases hcase : dictLookup id st.memories with
      | none =>
          rw [hcase] at h
          dsimp only at h
          rcases ih h with ⟨i2, s2, hmem, e2, he2, hv2⟩
          exact ⟨i2, s2, List.mem_cons_of_mem _ hmem, e2, he2, hv2⟩
      | some m =>
          rw [hcase] at h
          dsimp only at h
          rcases List.mem_cons.mp h with hEq | hmem
          · refine ⟨id, sc, List.mem_cons_self _ _, m, hcase, ?_⟩
            rw [hEq]
            simp [MemoryObject.touch]
          · rcases ih hmem with ⟨i2, s2, hmem2, e2, he2, hv2⟩
            by_cases hii : i2 = id
            · subst hii
              rw [cacheAt_saveInsert_self] at he2
              injection he2 with he2'
              refine ⟨i2, s2, List.mem_cons_of_mem _ hmem2, m, hcase, ?_⟩
              rw [hv2, ← he2']
              simp [MemoryObject.touch]
            · rw [cacheAt_saveInsert_ne _ hii] at he2
              exact ⟨i2, s2, List.mem_cons_of_mem _ hmem2, e2, he2, hv2⟩

/-! ## Visuals are never modified by retrieval -/

theorem visuals_managerGet {st : ManagerState} (id : String) (now : Nat) (j : String) :
    (cacheAt (managerGet st id now).2 j).map MemoryObject.visuals
      = (cacheAt st j).map MemoryObject.visuals := by
  by_cases hj : j = id
  · subst hj
    cases hcase : cacheAt st j with
    | none =>
        rw [managerGet_none now hcase]
        dsimp only
        rw [hcase]
    | some m =>
        rw [cacheAt_managerGet_self now hcase]
        simp [MemoryObject.touch]
  · rw [cacheAt_managerGet_ne now hj]

theorem visuals_scoreStep {st : ManagerState} (rv : Bool) (now : Nat)
    (id j : String) :
    (cacheAt (scoreStep rv now st id).1 j).map MemoryObject.visuals
      = (cacheAt st j).map MemoryObject.visuals := by
  cases hcase : cacheAt st id with
  | none => rw [scoreStep_none rv now hcase]
  | some m =>
      rw [scoreStep_eq rv now hcase]
      dsimp only
      rw [visuals_managerGet, visuals_managerGet]

theorem visuals_scoreAll {rv : Bool} {now : Nat} {ids : List String}
    {st : ManagerState} (j : String) :
    (cacheAt (scoreAll rv now st ids).1 j).map MemoryObject.visuals
      = (cacheAt st j).map MemoryObject.visuals := by
  induction ids generalizing st with
  | nil => rfl
  | cons i rest ih =>
      rcases hstep : scoreStep rv now st i with ⟨st1, entry⟩
      rw [scoreAll, hstep]
      dsimp only
      rcases hall : scoreAll rv now st1 rest with ⟨st2, scored⟩
      dsimp only
      have h1 : (cacheAt st1 j).map MemoryObject.visuals
          = (cacheAt st j).map MemoryObject.visuals := by
        have h' := @visuals_scoreStep st rv now i j
        rw [hstep] at h'
        exact h'
      have h2 : (cacheAt st2 j).map MemoryObject.visuals
          = (cacheAt st1 j).map MemoryObject.visuals := by
        have h' := @ih st1
        rw [hall] at h'
        exact h'
      cases entry <;> dsimp only <;> rw [h2, h1]

/-- A candidate that survives the visual filter (`require_visual = true`) had
a non-empty visuals list when its scored entry was produced; since nothing in
the scoring loop changes any visuals list, the fact transports to the
loop's final state. -/
theorem scoreAll_entry_visuals {now : Nat} {ids : List String}
    {st : ManagerState} {id : String} {s : Rat}
    (h : (id, s) ∈ (scoreAll true now st ids).2) :
    ∃ m, cacheAt (scoreAll true now st ids).1 id = some m ∧ m.visuals ≠ [] := by
  induction ids generalizing st with
  | nil => simp [scoreAll] at h
  | cons i rest ih =>
      rcases hstep : scoreStep true now st i with ⟨st1, entry⟩
      rw [scoreAll, hstep] at h ⊢
      dsimp only at h ⊢
      rcases hall : scoreAll true now st1 rest with ⟨st2, scored⟩
      rw [hall] at h
      dsimp only at h ⊢
      cases entry with
      | none =>
          dsimp only at h ⊢
          have h' := @ih st1 (by rw [hall]; exact h)
          rw [hall] at h'
          exact h'
      | some e =>
          dsimp only at h ⊢
          rcases List.mem_cons.mp h with hEq | hmem
          · -- the entry was produced by the head step: recover the visuals fact
            cases hcase : cacheAt st i with
            | none =>
                have h' := scoreStep_none true now hcase
                rw [hstep] at h'
                injection h' with h1 h2
                simp at h2
            | some m0 =>
                have h' := scoreStep_eq true now hcase
                rw [hstep] at h'
                injection h' with h1 h2
                -- h2 : some e = (candidateScore true m0).map fun s => (i, s)
                cases hcs : candidateScore true m0 with
                | none => rw [hcs] at h2; simp at h2
                | some s0 =>
                    rw [hcs] at h2
                    simp only [Option.map] at h2
                    injection h2 with h2'
                    -- the candidate passed the visual filter
                    have hvis : m0.visuals ≠ [] := by
                      intro hv
                      simp [candidateScore, hv] at hcs
                    have hid_i : id = i := by
                      rw [h2'] at hEq
                      injection hEq with ha hb
                    subst hid_i
                    -- the head step leaves the candidate twice-touched in st1
                    have hself : cacheAt st1 id = some ((m0.touch now).touch now) := by
                      have hc := cacheAt_scoreStep_self true now hcase
                      rw [hstep] at hc
                      exact hc
                    -- transport through the rest of the loop: visuals unchanged
                    have htrans : (cacheAt st2 id).map MemoryObject.visuals
                        = (cacheAt st1 id).map MemoryObject.visuals := by
                      have h'' := @visuals_scoreAll true now rest st1 id
                      rw [hall] at h''
                      exact h''
                    rw [hself] at htrans
                    simp only [MemoryObject.touch, Option.map] at htrans
                    rcases Option.map_eq_some'.mp htrans with ⟨m2, hm2, hv2⟩
                    exact ⟨m2, hm2, by rw [hv2]; exact hvis⟩
          · have h' := @ih st1 (by rw [hall]; exact hmem)
            rw [hall] at h'
            exact h'

/-! ## The stable descending sort -/

theorem mem_insertDesc {x y : String × Rat} {l : List (String × Rat)}
    (h : y ∈ insertDesc x l) : y = x ∨ y ∈ l := by
  induction l with
  | nil => simpa [insertDesc] using h
  | cons z zs ih =>
      rw [insertDesc] at h
      by_cases hz : z.2 ≤ x.2
      · rw [if_pos hz] at h
        rcases List.mem_cons.mp h with h | h
        · exact Or.inl h
        · exact Or.inr h
      · rw [if_neg hz] at h
        rcases List.mem_cons.mp h with h | h
        · exact Or.inr (by simp [h])
        · rcases ih h with h' | h'
          · exact Or.inl h'
          · exact Or.inr (List.mem_cons_of_mem _ h')

theorem insertDesc_perm (x : String × Rat) (l : List (String × Rat)) :
    (insertDesc x l).Perm (x :: l) := by
  induction l with
  | nil => simp [insertDesc]
  | cons z zs ih =>
      rw [insertDesc]
      by_cases hz : z.2 ≤ x.2
      · rw [if_pos hz]
      · rw [if_neg hz]
        exact (ih.cons z).trans (List.Perm.swap x z zs)

theorem sortDesc_perm (l : List (String × Rat)) : (sortDesc l).Perm l := by
  induction l with
  | nil => simp [sortDesc]
  | cons x xs ih =>
      rw [sortDesc]
      exact (insertDesc_perm x (sortDesc xs)).trans (ih.cons x)

theorem insertDesc_pairwise {x : String × Rat} {l : List (String × Rat)}
    (h : l.Pairwise (fun a b => b.2 ≤ a.2)) :
    (insertDesc x l).Pairwise (fun a b => b.2 ≤ a.2) := by
  induction l with
  | nil => simp [insertDesc]
  | cons z zs ih =>
      rw [insertDesc]
      rcases List.pairwise_cons.mp h with ⟨hz, hzs⟩
      by_cases hle : z.2 ≤ x.2
      · rw [if_pos hle]
        refine List.pairwise_cons.mpr ⟨?_, h⟩
        intro y hy
        rcases List.mem_cons.mp hy with hy | hy
        · rw [hy]; exact hle
        · exact le_trans (hz y hy) hle
      · rw [if_neg hle]
        refine List.pairwise_cons.mpr ⟨?_, ih hzs⟩
        intro y hy
        rcases mem_insertDesc hy with hy | hy
        · rw [hy]
          exact le_of_lt (lt_of_not_le hle)
        · exact hz y hy

theorem sortDesc_pairwise (l : List (String × Rat)) :
    (sortDesc l).Pairwise (fun a b => b.2 ≤ a.2) := by
  induction l with
  | nil => simp [sortDesc]
  | cons x xs ih =>
      rw [sortDesc]
      exact insertDesc_pairwise ih

/-- In a list that is pairwise-ordered by `R`, an element `a` splits before
`b` whenever `R b a` fails (and `a ≠ b`). -/
theorem pairwise_split {α : Type} {R : α → α → Prop} {l : List α} {a b : α}
    (hp : l.Pairwise R) (ha : a ∈ l) (hb : b ∈ l) (hab : a ≠ b)
    (hnR : ¬ R b a) :
    ∃ l1 l2 l3, l = l1 ++ a :: l2 ++ b :: l3 := by
  induction l with
  | nil => simp at ha
  | cons x xs ih =>
      rcases List.pairwise_cons.mp hp with ⟨hx, hxs⟩
      rcases List.mem_cons.mp ha with haEq | hamem
      · subst haEq
        have hbmem : b ∈ xs := by
          rcases List.mem_cons.mp hb with hbEq | hbmem
          · exact absurd hbEq.symm hab
          · exact hbmem
        rcases List.append_of_mem hbmem with ⟨l2, l3, hsplit⟩
        exact ⟨[], l2, l3, by rw [hsplit]; rfl⟩
      · rcases List.mem_cons.mp hb with hbEq | hbmem
        · subst hbEq
          exact absurd (hx a hamem) hnR
        · rcases ih hxs hamem hbmem with ⟨l1, l2, l3, hsplit⟩
          exact ⟨x :: l1, l2, l3, by rw [hsplit]; rfl⟩

/-! ## Candidate-generation lemmas -/

theorem filter_map_entity_sublist (f : MemoryObject → Bool) :
    ∀ (l : List (String × MemoryObject)), (∀ p ∈ l, p.2.entity_id = p.1) →
      ((((l.map Prod.snd).filter f).map MemoryObject.entity_id).Sublist
        (l.map Prod.fst))
  | [], _ => by simp
  | p :: ps, h => by
      have hps := fun q hq => h q (List.mem_cons_of_mem _ hq)
      have hp : p.2.entity_id = p.1 := h p (List.mem_cons_self _ _)
      simp only [List.map_cons, List.filter_cons]
      by_cases hf : f p.2
      · rw [if_pos hf]
        simp only [List.map_cons, hp]
        exact (filter_map_entity_sublist f ps hps).cons₂ p.1
      · rw [if_neg hf]
        exact (filter_map_entity_sublist f ps hps).cons p.1

theorem candidateIds_nodup {st : ManagerState} (q : String)
    (hk : (dictKeys st.memories).Nodup) (he : EId st) :
    (candidateIds st q).Nodup := by
  have hsub := filter_map_entity_sublist
    (fun m => m.semantic.texts.any (fun t => pyIn (strLower q) (strLower t)))
    st.memories he
  exact hsub.nodup hk

theorem dictLookup_of_mem_values {l : List (String × MemoryObject)}
    (hk : (dictKeys l).Nodup) (he : ∀ p ∈ l, p.2.entity_id = p.1)
    {m : MemoryObject} (h : m ∈ l.map Prod.snd) :
    dictLookup m.entity_id l = some m := by
  induction l with
  | nil => simp at h
  | cons p ps ih =>
      simp only [dictKeys, List.map_cons, List.nodup_cons] at hk
      have hps := fun q hq => he q (List.mem_cons_of_mem _ hq)
      have hp : p.2.entity_id = p.1 := he p (List.mem_cons_self _ _)
      simp only [List.map_cons] at h
      rcases List.mem_cons.mp h with hEq | hmem
      · subst hEq
        rw [dictLookup, if_pos hp.symm]
      · have hlook := ih hk.2 hps hmem
        rw [dictLookup, if_neg ?hne]
        · exact hlook
        case hne =>
          intro hcontra
          apply hk.1
          rw [hcontra]
          exact (dictLookup_isSome_iff _ _).mp (by rw [hlook]; rfl)

theorem cacheAt_of_mem_listAll {st : ManagerState} {m : MemoryObject}
    (hk : (dictKeys st.memories).Nodup) (he : EId st) (h : m ∈ listAll st) :
    cacheAt st m.entity_id = some m :=
  dictLookup_of_mem_values hk he h

theorem naiveSearch_subset_listAll {st : ManagerState} {q : String}
    {m : MemoryObject} (h : m ∈ naiveSearch st q) : m ∈ listAll st :=
  List.mem_of_mem_filter h

/-! ## Claim C7: the visual filter -/

/-- Claim C7: `retrieve` with `require_visual = true` never returns a memory
object whose visuals list is empty, for every query, state, `top_k` and
clock — a candidate with empty visuals is dropped before scoring completes,
and nothing in the retrieval pipeline empties a visuals list. -/
theorem C7_retrieve_visual_filter (st : ManagerState) (q : String)
    (k now : Nat) (m : MemoryObject)
    (hm : m ∈ (retrieve st q true k now).1) : m.visuals ≠ [] := by
  rw [retrieve] at hm
  rcases touchSurvivors_result_visuals hm with ⟨id, s, hmem, e, hce, hve⟩
  have hmem2 : (id, s) ∈ (scoreAll true now st (candidateIds st q)).2 :=
    ((sortDesc_perm _).mem_iff).mp (List.take_subset _ _ hmem)
  rcases scoreAll_entry_visuals hmem2 with ⟨m2, hm2, hv2⟩
  rw [hce] at hm2
  injection hm2 with hm2'
  rw [hve, hm2']
  exact hv2

/-! ## Claim C1: retrieval's mutation footprint -/

/-- Claim C1 (amended).  During `retrieve(query, require_visual, top_k)`:
(i) every memory object outside the candidate set is completely untouched, in
the cache and in the durable store; (ii) every candidate that does not
survive (dropped by the visual filter, or ranked below `top_k`) is
nevertheless touched twice — the `is_well_defined` and `has_visual` lookups
go through the Manager's `get`, each incrementing `usage_count` and stamping
the last-accessed time, persisted; (iii) each of the surviving `top_k`
candidates additionally receives the reinforcement (`usage_count += 1` plus
`touch()`), for a net `usage_count` increase of 4 and a last-accessed stamp
of `now`, persisted. -/
theorem C1_retrieve_usage_effects (st : ManagerState) (q : String) (rv : Bool)
    (k now : Nat) (hwf : WF st) :
    (∀ j, j ∉ candidateIds st q →
      cacheAt (retrieve st q rv k now).2 j = cacheAt st j ∧
      dbAt (retrieve st q rv k now).2 j = dbAt st j) ∧
    (∀ j ∈ candidateIds st q, j ∉ survivorIds st q rv k now →
      ∀ m, cacheAt st j = some m →
        cacheAt (retrieve st q rv k now).2 j = some ((m.touch now).touch now) ∧
        dbAt (retrieve st q rv k now).2 j
          = some (serializeMemory ((m.touch now).touch now)) ∧
        ((m.touch now).touch now).usage_count = m.usage_count + 2 ∧
        ((m.touch now).touch now).last_accessed_at = now) ∧
    (∀ j ∈ survivorIds st q rv k now, j ∈ candidateIds st q ∧
      ∀ m, cacheAt st j = some m →
        cacheAt (retrieve st q rv k now).2 j
          = some (reinforce ((m.touch now).touch now) now) ∧
        dbAt (retrieve st q rv k now).2 j
          = some (serializeMemory (reinforce ((m.touch now).touch now) now)) ∧
        (reinforce ((m.touch now).touch now) now).usage_count = m.usage_count + 4 ∧
        (reinforce ((m.touch now).touch now) now).last_accessed_at = now) := by
  obtain ⟨hk, he, hidx, hdbk, hdbe⟩ := hwf
  have hnd : (candidateIds st q).Nodup := candidateIds_nodup q hk he
  have hretr : retrieve st q rv k now
      = touchSurvivors now (scoreAll rv now st (candidateIds st q)).1
          ((sortDesc (scoreAll rv now st (candidateIds st q)).2).take k) := rfl
  have hEP : EId (scoreAll rv now st (candidateIds st q)).1 := EId_scoreAll he
  have hscnd : ((scoreAll rv now st (candidateIds st q)).2.map Prod.fst).Nodup :=
    scoreAll_fst_sublist.nodup hnd
  have hsortnd :
      ((sortDesc (scoreAll rv now st (candidateIds st q)).2).map Prod.fst).Nodup :=
    (((sortDesc_perm ((scoreAll rv now st (candidateIds st q)).2)).map
      Prod.fst).nodup_iff).mpr hscnd
  have hLnd :
      (((sortDesc (scoreAll rv now st (candidateIds st q)).2).take k).map
        Prod.fst).Nodup :=
    ((List.take_sublist k _).map Prod.fst).nodup hsortnd
  have hsubsurv : ∀ x,
      x ∈ ((sortDesc (scoreAll rv now st (candidateIds st q)).2).take k).map
        Prod.fst → x ∈ candidateIds st q := by
    intro x hx
    rcases List.mem_map.mp hx with ⟨e, he1, he2⟩
    have hmem1 : e ∈ (scoreAll rv now st (candidateIds st q)).2 :=
      ((sortDesc_perm _).mem_iff).mp (List.take_subset _ _ he1)
    have hmem2 : e.1 ∈ (scoreAll rv now st (candidateIds st q)).2.map Prod.fst :=
      List.mem_map_of_mem Prod.fst hmem1
    exact he2 ▸ (scoreAll_fst_sublist.subset hmem2)
  refine ⟨?_, ?_, ?_⟩
  · intro j hj
    have hjL : j ∉ ((sortDesc (scoreAll rv now st (candidateIds st q)).2).take
        k).map Prod.fst := fun h => hj (hsubsurv j h)
    constructor
    · rw [hretr, cacheAt_touchSurvivors_notMem hjL, cacheAt_scoreAll_notMem hj]
    · rw [hretr, dbAt_touchSurvivors_notMem hEP hjL, dbAt_scoreAll_notMem he hj]
  · intro j hjin hjs m hm
    have hjL : j ∉ ((sortDesc (scoreAll rv now st (candidateIds st q)).2).take
        k).map Prod.fst := hjs
    refine ⟨?_, ?_, ?_, ?_⟩
    · rw [hretr, cacheAt_touchSurvivors_notMem hjL]
      exact cacheAt_scoreAll_mem hnd hjin hm
    · rw [hretr, dbAt_touchSurvivors_notMem hEP hjL]
      exact dbAt_scoreAll_mem he hnd hjin hm
    · simp only [MemoryObject.touch]
    · simp [MemoryObject.touch]
  · intro j hjs
    have hjL : j ∈ ((sortDesc (scoreAll rv now st (candidateIds st q)).2).take
        k).map Prod.fst := hjs
    have hjin : j ∈ candidateIds st q := hsubsurv j hjL
    refine ⟨hjin, ?_⟩
    intro m hm
    have hmid : cacheAt (scoreAll rv now st (candidateIds st q)).1 j
        = some ((m.touch now).touch now) := cacheAt_scoreAll_mem hnd hjin hm
    refine ⟨?_, ?_, ?_, ?_⟩
    · rw [hretr]
      exact cacheAt_touchSurvivors_mem hLnd hjL hmid
    · rw [hretr]
      exact dbAt_touchSurvivors_mem hEP hLnd hjL hmid
    · simp only [reinforce, MemoryObject.touch]
    · simp [reinforce, MemoryObject.touch]

/-! ## Claim C8: ranking order -/

theorem candidateScore_A {A : MemoryObject}
    (hAname : A.structured.name ≠ "") (hAfn : A.structured.function ≠ "")
    (hAvis : A.visuals ≠ []) (hAusage : A.usage_count = 0) :
    candidateScore false A = some ((77 : Rat)/100) := by
  have hvis : A.visuals.isEmpty = false := by
    cases hv : A.visuals with
    | nil => exact absurd hv hAvis
    | cons x xs => rfl
  simp [candidateScore, hAname, hAfn, hvis, hAusage]
  norm_num

theorem candidateScore_B {B : MemoryObject}
    (hBwd : B.structured.name = "" ∨ B.structured.function = "")
    (hBvis : B.visuals = []) (hBusage : B.usage_count = 0) :
    candidateScore false B = some ((22 : Rat)/100) := by
  have hcond : ¬(¬B.structured.name = "" ∧ ¬B.structured.function = "") := by
    rcases hBwd with h | h
    · intro hc
      exact hc.1 h
    · intro hc
      exact hc.2 h
  simp [candidateScore, hBvis, hBusage]
  rw [if_neg hcond]
  norm_num

/-- Claim C8 (amended).  For query-matching candidates A (well-defined, has a
visual record, `usage_count = 0`) and B (not well-defined, no visuals,
`usage_count = 0`), retrieved with `require_visual = false`: by the time each
candidate's usage bonus is read, its `usage_count` has already been bumped to
2 by the two predicate lookups (through the Manager's mutating `get`), so A
scores 0.5 + 0.2 + 0.05 + 0.02 = 0.77 — not the 0.75 of the spec — and B
scores 0.5 − 0.3 + 0.02 = 0.22, not 0.2.  A's score still strictly exceeds
B's, and A is ranked strictly before B. -/
theorem C8_ranking_order (st : ManagerState) (q : String) (now : Nat)
    (A B : MemoryObject)
    (hk : (dictKeys st.memories).Nodup) (he : EId st)
    (hAmem : A ∈ naiveSearch st q) (hBmem : B ∈ naiveSearch st q)
    (hAname : A.structured.name ≠ "") (hAfn : A.structured.function ≠ "")
    (hAvis : A.visuals ≠ []) (hAusage : A.usage_count = 0)
    (hBwd : B.structured.name = "" ∨ B.structured.function = "")
    (hBvis : B.visuals = []) (hBusage : B.usage_count = 0)
    (hne : A.entity_id ≠ B.entity_id) :
    (A.entity_id, (77 : Rat)/100) ∈ (scoreAll false now st (candidateIds st q)).2 ∧
    (B.entity_id, (22 : Rat)/100) ∈ (scoreAll false now st (candidateIds st q)).2 ∧
    (22 : Rat)/100 < (77 : Rat)/100 ∧
    ∃ l1 l2 l3,
      sortDesc (scoreAll false now st (candidateIds st q)).2
        = l1 ++ (A.entity_id, (77 : Rat)/100) :: l2
            ++ (B.entity_id, (22 : Rat)/100) :: l3 := by
  have hnd : (candidateIds st q).Nodup := candidateIds_nodup q hk he
  have hA : cacheAt st A.entity_id = some A :=
    cacheAt_of_mem_listAll hk he (naiveSearch_subset_listAll hAmem)
  have hB : cacheAt st B.entity_id = some B :=
    cacheAt_of_mem_listAll hk he (naiveSearch_subset_listAll hBmem)
  have hAid : A.entity_id ∈ candidateIds st q :=
    List.mem_map_of_mem MemoryObject.entity_id hAmem
  have hBid : B.entity_id ∈ candidateIds st q :=
    List.mem_map_of_mem MemoryObject.entity_id hBmem
  have hAs : (A.entity_id, (77 : Rat)/100)
      ∈ (scoreAll false now st (candidateIds st q)).2 :=
    scoreAll_entry_mem hnd hAid hA (candidateScore_A hAname hAfn hAvis hAusage)
  have hBs : (B.entity_id, (22 : Rat)/100)
      ∈ (scoreAll false now st (candidateIds st q)).2 :=
    scoreAll_entry_mem hnd hBid hB (candidateScore_B hBwd hBvis hBusage)
  refine ⟨hAs, hBs, by norm_num, ?_⟩
  have hAsort : (A.entity_id, (77 : Rat)/100)
      ∈ sortDesc (scoreAll false now st (candidateIds st q)).2 :=
    ((sortDesc_perm _).mem_iff).mpr hAs
  have hBsort : (B.entity_id, (22 : Rat)/100)
      ∈ sortDesc (scoreAll false now st (candidateIds st q)).2 :=
    ((sortDesc_perm _).mem_iff).mpr hBs
  exact pairwise_split (sortDesc_pairwise _) hAsort hBsort
    (by intro hcontra; injection hcontra with h1 h2; exact hne h1)
    (by intro hcontra; dsimp only at hcontra; norm_num at hcontra)

/-! ## Claim C5: repeating the add operations with present values -/

theorem appendAbsent_all_mem {acc new : List String}
    (h : ∀ a ∈ new, a ∈ acc) :
    addRequirements.appendAbsent acc new = (acc, false) := by
  induction new with
  | nil => rfl
  | cons a rest ih =>
      rw [addRequirements.appendAbsent, if_pos (h a (List.mem_cons_self _ _))]
      exact ih (fun b hb => h b (List.mem_cons_of_mem _ hb))

/-- Claim C5 (amended).  For an existing memory id: `add_requirements` with
only already-present aliases/constraints and `add_visual` with an
already-recorded `(image_id, bbox)` pair report no change (`false`) and leave
the object's content untouched apart from the usage/last-accessed bump of the
Manager `get` they perform (which also persists).  `add_text`, however,
reports `true` even when the text is already present, and additionally stamps
the semantic sub-record's `updated_at` and persists — it does not return a
no-change result. -/
theorem C5_repeat_add_operations (st : ManagerState) (id : String) (now : Nat)
    (m : MemoryObject) (hm : cacheAt st id = some m) :
    (∀ text, text ∈ m.semantic.texts →
      (addText st id text none now).1 = true ∧
      cacheAt (addText st id text none now).2 id
        = some { m.touch now with semantic := m.semantic.touch now } ∧
      (m.semantic.touch now).texts = m.semantic.texts ∧
      (m.touch now).usage_count = m.usage_count + 1) ∧
    (∀ aliases constraints,
      (∀ a ∈ aliases, a ∈ m.structured.aliases) →
      (∀ c ∈ constraints, c ∈ m.structured.constraints) →
      addRequirements st id aliases constraints now
        = (false, (managerGet st id now).2)) ∧
    (∀ image_id bbox view_angle confidence,
      m.visuals.any (fun v => v.image_id = image_id ∧ v.bbox = bbox) = true →
      addVisual st id image_id bbox view_angle confidence [] now
        = .ok (false, (managerGet st id now).2)) := by
  refine ⟨?_, ?_, ?_⟩
  · intro text htext
    refine ⟨?_, ?_, by simp [SemanticEntity.touch], by simp [MemoryObject.touch]⟩
    · rw [addText, managerGet_some now hm]
    · rw [addText, managerGet_some now hm]
      dsimp only
      simp only [MemoryObject.touch]
      rw [if_pos htext]
      exact cacheAt_saveInsert_self _
  · intro aliases constraints hal hco
    rw [addRequirements, managerGet_some now hm]
    dsimp only
    simp only [MemoryObject.touch]
    rw [appendAbsent_all_mem hal, appendAbsent_all_mem hco]
    simp
  · intro image_id bbox view_angle confidence hdup
    rw [addVisual, managerGet_some now hm]
    dsimp only
    simp only [MemoryObject.touch]
    rw [hdup]
    rfl

/-! ## Claim C6: the Manager `get` contract -/

/-- Claim C6.  `get(id)` returns the cached object when present and `none`
otherwise (unknown ids are a plain absent result and leave the state
untouched); every successful lookup increments the usage counter by exactly
1, sets the last-accessed timestamp, and persists the changed object to the
durable store before returning — all other cache entries and durable rows
are untouched. -/
theorem C6_get_contract (st : ManagerState) (id : String) (now : Nat)
    (he : EId st) :
    (cacheAt st id = none → managerGet st id now = (none, st)) ∧
    (∀ m, cacheAt st id = some m →
      (managerGet st id now).1 = some (m.touch now) ∧
      (m.touch now).usage_count = m.usage_count + 1 ∧
      (m.touch now).last_accessed_at = now ∧
      (m.touch now).structured = m.structured ∧
      (m.touch now).semantic = m.semantic ∧
      (m.touch now).visuals = m.visuals ∧
      cacheAt (managerGet st id now).2 id = some (m.touch now) ∧
      dbAt (managerGet st id now).2 id = some (serializeMemory (m.touch now)) ∧
      ∀ j, j ≠ id →
        cacheAt (managerGet st id now).2 j = cacheAt st j ∧
        dbAt (managerGet st id now).2 j = dbAt st j) := by
  refine ⟨fun h => managerGet_none now h, ?_⟩
  intro m hm
  refine ⟨?_, rfl, rfl, rfl, rfl, rfl, cacheAt_managerGet_self now hm,
    dbAt_managerGet_self now he hm, ?_⟩
  · rw [managerGet_some now hm]
  · intro j hj
    exact ⟨cacheAt_managerGet_ne now hj, dbAt_managerGet_ne now he hj⟩

/-! ## Claim C3: the save/load round-trip -/

theorem charDigitVal_digitChar {d : Nat} (hd : d < 10) :
    charDigitVal (Nat.digitChar d) = d := by
  interval_cases d <;> decide

theorem isDigitCh_digitChar {d : Nat} (hd : d < 10) :
    isDigitCh (Nat.digitChar d) = true := by
  interval_cases d <;> decide

theorem timeDigits_lt : ∀ (fuel n : Nat), ∀ d ∈ timeDigits fuel n, d < 10
  | 0, n, d, hd => by simp [timeDigits] at hd
  | fuel + 1, n, d, hd => by
      rw [timeDigits] at hd
      by_cases hn : n = 0
      · rw [if_pos hn] at hd
        simp at hd
      · rw [if_neg hn] at hd
        rcases List.mem_cons.mp hd with h | h
        · rw [h]
          exact Nat.mod_lt _ (by norm_num)
        · exact timeDigits_lt fuel (n / 10) d h

theorem ofDigits_timeDigits : ∀ (fuel n : Nat), n ≤ fuel →
    Nat.ofDigits 10 (timeDigits fuel n) = n
  | 0, n, h => by
      have : n = 0 := Nat.le_zero.mp h
      simp [timeDigits, this, Nat.ofDigits]
  | fuel + 1, n, h => by
      rw [timeDigits]
      by_cases hn : n = 0
      · simp [hn, Nat.ofDigits]
      · rw [if_neg hn, Nat.ofDigits_cons,
          ofDigits_timeDigits fuel (n / 10) (by omega)]
        omega

theorem decodeTime_encodeTime (t : Nat) : decodeTime (encodeTime t) = some t := by
  rw [decodeTime, encodeTime]
  have hdata : (String.mk (((timeDigits t t).map Nat.digitChar).reverse)).data
      = ((timeDigits t t).map Nat.digitChar).reverse := rfl
  rw [hdata]
  have hall : (((timeDigits t t).map Nat.digitChar).reverse).all isDigitCh = true := by
    rw [List.all_eq_true]
    intro c hc
    rw [List.mem_reverse] at hc
    rcases List.mem_map.mp hc with ⟨d, hd, hdc⟩
    rw [← hdc]
    exact isDigitCh_digitChar (timeDigits_lt t t d hd)
  rw [if_pos hall, List.reverse_reverse]
  have hmap : ((timeDigits t t).map Nat.digitChar).map charDigitVal
      = timeDigits t t := by
    rw [List.map_map]
    have hcongr : ∀ d ∈ timeDigits t t, (charDigitVal ∘ Nat.digitChar) d = id d :=
      fun d hd => charDigitVal_digitChar (timeDigits_lt t t d hd)
    rw [List.map_congr_left hcongr, List.map_id]
  rw [hmap, ofDigits_timeDigits t t (le_refl t)]

theorem decodeStructured_encodeStructured (e : StructuredEntity Nat) :
    decodeStructured (encodeStructured e) = some e := by
  simp [decodeStructured, encodeStructured, decodeTime_encodeTime]

theorem decodeSemantic_encodeSemantic (e : SemanticEntity Nat) :
    decodeSemantic (encodeSemantic e) = some e := by
  simp [decodeSemantic, encodeSemantic, decodeTime_encodeTime]

theorem decodeVisual_encodeVisual (e : VisualEntity Nat) :
    decodeVisual (encodeVisual e) = some e := by
  simp [decodeVisual, encodeVisual, decodeTime_encodeTime]

theorem decodeVisualList_encodeVisual (l : List (VisualEntity Nat)) :
    decodeVisualList (l.map encodeVisual) = some l := by
  induction l with
  | nil => rfl
  | cons v vs ih =>
      simp [decodeVisualList, decodeVisual_encodeVisual, ih]

/-- Field-level round-trip: decoding the row written by `save_memory` gives
back the exact object, lists and maps order- and key-preserved, timestamps
equal at the textual precision. -/
theorem decodeRow_serializeMemory (m : MemoryObject) :
    decodeRow (serializeMemory m) = some m := by
  simp [decodeRow, serializeMemory, decodeStructured_encodeStructured,
    decodeSemantic_encodeSemantic, decodeVisualList_encodeVisual,
    decodeTime_encodeTime]

theorem cacheAt_registerToCache_self (st : ManagerState) (mo : MemoryObject) :
    cacheAt (registerToCache st mo) mo.entity_id = some mo := by
  rw [registerToCache]
  cases dictLookup (strLower mo.structured.name) st.nameIndex <;>
    simp [cacheAt, dictLookup_insert_self]

theorem cacheAt_registerToCache_ne (st : ManagerState) (mo : MemoryObject)
    {j : String} (hj : j ≠ mo.entity_id) :
    cacheAt (registerToCache st mo) j = cacheAt st j := by
  rw [registerToCache]
  cases dictLookup (strLower mo.structured.name) st.nameIndex <;>
    simp [cacheAt, dictLookup_insert_ne hj]

/-- The decoded object of a row always carries the row's `entity_id`. -/
theorem decodeRow_entity {row : DbRow} {mo : MemoryObject}
    (h : decodeRow row = some mo) : mo.entity_id = row.entity_id := by
  rw [decodeRow] at h
  cases h1 : decodeStructured row.structured_payload with
  | none => rw [h1] at h; simp at h
  | some s =>
      rw [h1] at h
      cases h2 : decodeSemantic row.semantic_payload with
      | none => rw [h2] at h; simp at h
      | some sem =>
          rw [h2] at h
          cases h3 : decodeVisualList row.visuals_payload with
          | none => rw [h3] at h; simp at h
          | some vs =>
              rw [h3] at h
              cases h4 : decodeTime row.last_accessed_at with
              | none => rw [h4] at h; simp at h
              | some la =>
                  rw [h4] at h
                  simp only [Option.pure_def, Option.bind_some, Option.bind] at h
                  injection h with h'
                  rw [← h']

/-- Rebuilding from rows whose keys are unique, and which all decode to
objects stored under their own ids, succeeds and recovers exactly the rows'
decoded objects. -/
theorem loadRows_lookup :
    ∀ (rows : List (String × DbRow)),
      (∀ p ∈ rows, ∃ mo, decodeRow p.2 = some mo ∧ mo.entity_id = p.1) →
      (dictKeys rows).Nodup →
      ∀ (s0 : ManagerState), ∃ stf,
        loadRows rows s0 = some stf ∧
        (∀ k r, dictLookup k rows = some r → cacheAt stf k = decodeRow r) ∧
        (∀ k, dictLookup k rows = none → cacheAt stf k = cacheAt s0 k)
  | [], _, _, s0 => ⟨s0, rfl, fun k r hr => by simp [dictLookup] at hr,
      fun k _ => rfl⟩
  | p :: ps, h, hnd, s0 => by
      rcases h p (List.mem_cons_self _ _) with ⟨mo, hdec, heid⟩
      simp only [dictKeys, List.map_cons, List.nodup_cons] at hnd
      have hps := fun q hq => h q (List.mem_cons_of_mem _ hq)
      rcases loadRows_lookup ps hps hnd.2 (registerToCache s0 mo)
        with ⟨stf, hfold, hsome, hnone⟩
      refine ⟨stf, ?_, ?_, ?_⟩
      · rw [loadRows, hdec]
        exact hfold
      · intro k r hr
        by_cases hk : p.1 = k
        · rw [dictLookup, if_pos hk] at hr
          injection hr with hr
          subst hr
          have hknone : dictLookup k ps = none := by
            cases hcase : dictLookup k ps with
            | none => rfl
            | some r' =>
                exact absurd ((dictLookup_isSome_iff k ps).mp (by rw [hcase]; rfl))
                  (hk ▸ hnd.1)
          rw [hnone k hknone, ← hk, ← heid, cacheAt_registerToCache_self, hdec]
        · rw [dictLookup, if_neg hk] at hr
          exact hsome k r hr
      · intro k hk
        rw [dictLookup] at hk
        by_cases hpk : p.1 = k
        · rw [if_pos hpk] at hk
          simp at hk
        · rw [if_neg hpk] at hk
          rw [hnone k hk, cacheAt_registerToCache_ne]
          rw [heid]
          exact fun hc => hpk hc.symm

/-- A rebuild over rows that do not contain a key never puts that key into
the cache. -/
theorem loadRows_none :
    ∀ (rows : List (String × DbRow)) {id : String},
      (∀ p ∈ rows, p.2.entity_id = p.1) → id ∉ dictKeys rows →
      ∀ {s0 stf : ManagerState},
        loadRows rows s0 = some stf →
        cacheAt s0 id = none → cacheAt stf id = none
  | [], id, _, _, s0, stf, hfold, h0 => by
      rw [loadRows] at hfold
      injection hfold with hfold
      rw [← hfold]
      exact h0
  | p :: ps, id, hwf, hid, s0, stf, hfold, h0 => by
      rw [loadRows] at hfold
      cases hdec : decodeRow p.2 with
      | none => rw [hdec] at hfold; simp at hfold
      | some mo =>
          rw [hdec] at hfold
          dsimp only at hfold
          have hid1 : id ≠ p.1 := by
            intro hc
            apply hid
            rw [hc]
            simp [dictKeys]
          have hmo : mo.entity_id = p.1 :=
            (decodeRow_entity hdec).trans (hwf p (List.mem_cons_self _ _))
          have h1 : cacheAt (registerToCache s0 mo) id = none := by
            rw [cacheAt_registerToCache_ne s0 mo (by rw [hmo]; exact hid1)]
            exact h0
          exact loadRows_none ps (fun q hq => hwf q (List.mem_cons_of_mem _ hq))
            (fun hc => hid (List.mem_cons_of_mem _ hc)) hfold h1

/-- Claim C3.  Any memory object (as built by the factory and mutated by the
accessors), saved with `save_memory` into any well-formed durable store whose
rows all decode, survives a simulated restart: the row round-trips
field-equal (`decodeRow_serializeMemory`), and `_load_from_db` over the
post-save store succeeds and yields a cache whose entry at the object's id is
the original object. -/
theorem C3_save_reload_roundtrip (m : MemoryObject) (st : ManagerState)
    (hdbe : ∀ p ∈ st.db, p.2.entity_id = p.1)
    (hdbk : (dictKeys st.db).Nodup)
    (hdec : ∀ p ∈ st.db, ∃ mo, decodeRow p.2 = some mo) :
    decodeRow (serializeMemory m) = some m ∧
    ∃ st', loadFromDb (saveMemory st m).db = some st' ∧
      cacheAt st' m.entity_id = some m := by
  refine ⟨decodeRow_serializeMemory m, ?_⟩
  have hdb' : (saveMemory st m).db
      = dictInsert m.entity_id (serializeMemory m) st.db := rfl
  have hrows : ∀ p ∈ dictInsert m.entity_id (serializeMemory m) st.db,
      ∃ mo, decodeRow p.2 = some mo ∧ mo.entity_id = p.1 := by
    intro p hp
    rcases mem_dictInsert hp with h' | h'
    · exact ⟨m, by rw [h']; exact decodeRow_serializeMemory m, by rw [h']⟩
    · rcases hdec p h' with ⟨mo, hmo⟩
      exact ⟨mo, hmo, (decodeRow_entity hmo).trans (hdbe p h')⟩
  have hnd' : (dictKeys (dictInsert m.entity_id (serializeMemory m) st.db)).Nodup :=
    dictKeys_insert_nodup _ _ hdbk
  rcases loadRows_lookup _ hrows hnd'
    { memories := [], nameIndex := [],
      db := dictInsert m.entity_id (serializeMemory m) st.db }
    with ⟨stf, hfold, hsome, hnone⟩
  refine ⟨stf, ?_, ?_⟩
  · rw [loadFromDb, hdb']
    exact hfold
  · rw [hsome m.entity_id (serializeMemory m) (dictLookup_insert_self _ _ _)]
    exact decodeRow_serializeMemory m

/-! ## Claim C9: delete completeness -/

theorem pyListRemove_of_mem {a : String} {l : List String} (h : a ∈ l) :
    ∃ l', pyListRemove a l = some l' := by
  induction l with
  | nil => simp at h
  | cons x xs ih =>
      by_cases hx : x = a
      · exact ⟨xs, by simp [pyListRemove, hx]⟩
      · have : a ∈ xs := by
          rcases List.mem_cons.mp h with h | h
          · exact absurd h.symm hx
          · exact h
        rcases ih this with ⟨l', hl'⟩
        exact ⟨x :: l', by simp [pyListRemove, hx, hl']⟩

theorem notMem_dictKeys_remove {β : Type} (k : String) (d : List (String × β)) :
    k ∉ dictKeys (dictRemove k d) := by
  intro hmem
  have hs := (dictLookup_isSome_iff k (dictRemove k d)).mpr hmem
  rw [dictLookup_remove_self] at hs
  simp at hs

theorem findByName_go_ne {now : Nat} {id : String} :
    ∀ (is : List String) (st : ManagerState), EId st → cacheAt st id = none →
      ∀ mo ∈ (findByName.go now is st).1, mo.entity_id ≠ id
  | [], st, _, _, mo, hmo => by simp [findByName.go] at hmo
  | i :: is, st, he, hnone, mo, hmo => by
      rw [findByName.go] at hmo
      by_cases hsome : (dictLookup i st.memories).isSome
      · rw [if_pos hsome] at hmo
        cases hcase : dictLookup i st.memories with
        | none => rw [hcase] at hsome; simp at hsome
        | some m0 =>
            have hii : i ≠ id := by
              intro hc
              simp only [cacheAt] at hnone
              rw [hc, hnone] at hcase
              exact absurd hcase (by simp)
            have heid : m0.entity_id = i := he (i, m0) (dictLookup_mem hcase)
            have hge := managerGet_some now hcase
            rw [hge] at hmo
            dsimp only at hmo
            rcases List.mem_cons.mp hmo with hEq | hmem
            · rw [hEq]
              simp only [MemoryObject.touch]
              simpa [heid] using hii
            · refine findByName_go_ne is _ ?_ ?_ mo hmem
              · exact EId_saveInsert he (by simp [MemoryObject.touch, heid])
              · rw [cacheAt_saveInsert_ne _ (fun hc : id = i => hii hc.symm)]
                exact hnone
      · rw [if_neg hsome] at hmo
        exact findByName_go_ne is st he hnone mo hmo

theorem EId_dictRemove {st : ManagerState} {id : String} (he : EId st) :
    ∀ p ∈ dictRemove id st.memories, p.2.entity_id = p.1 :=
  fun p hp => he p (mem_dictRemove hp)

/-- Claim C9.  `delete(id)` returns whether the id existed; when it does, after
the call `get(id)` is an absent result (and leaves the state unchanged),
`find_by_name` never lists the deleted id again (for any name), the durable
row is gone, and a full rebuild of the cache from durable storage does not
resurrect the object. -/
theorem C9_delete_contract (st : ManagerState) (id : String) (now : Nat)
    (hwf : WF st) :
    (∃ r, managerDelete st id = some r ∧ (r.1 = true ↔ (cacheAt st id).isSome)) ∧
    (∀ m, cacheAt st id = some m →
      ∃ st', managerDelete st id = some (true, st') ∧
        managerGet st' id now = (none, st') ∧
        (∀ name, ∀ mo ∈ (findByName st' name now).1, mo.entity_id ≠ id) ∧
        dbAt st' id = none ∧
        ∀ st'', loadFromDb st'.db = some st'' → cacheAt st'' id = none) := by
  obtain ⟨hk, he, hidx, hdbk, hdbe⟩ := hwf
  cases hcase : cacheAt st id with
  | none =>
      constructor
      · refine ⟨(false, st), ?_, by simp⟩
        rw [managerDelete]
        simp only [cacheAt] at hcase
        rw [hcase]
      · intro m hm
        exact absurd hm (by simp)
  | some m =>
      have hmem : (id, m) ∈ st.memories := dictLookup_mem hcase
      have hbucket : id ∈ (dictLookup (strLower m.structured.name) st.nameIndex).getD [] :=
        hidx (id, m) hmem
      cases hidxcase : dictLookup (strLower m.structured.name) st.nameIndex with
      | none =>
          rw [hidxcase] at hbucket
          simp at hbucket
      | some ids =>
          rw [hidxcase] at hbucket
          simp only [Option.getD] at hbucket
          rcases pyListRemove_of_mem hbucket with ⟨ids', hrem⟩
          have hdel : managerDelete st id = some (true,
              { memories := dictRemove id st.memories
                nameIndex := dictInsert (strLower m.structured.name) ids' st.nameIndex
                db := dictRemove id st.db }) := by
            rw [managerDelete]
            simp only [cacheAt] at hcase
            rw [hcase]
            dsimp only
            rw [hidxcase]
            dsimp only
            rw [hrem]
          have hnone' : cacheAt
              { memories := dictRemove id st.memories
                nameIndex := dictInsert (strLower m.structured.name) ids' st.nameIndex
                db := dictRemove id st.db } id = none := by
            simp [cacheAt, dictLookup_remove_self]
          constructor
          · exact ⟨(true, _), hdel, by simp⟩
          · intro m' hm'
            refine ⟨_, hdel, managerGet_none now hnone', ?_, ?_, ?_⟩
            · intro name mo hmo
              rw [findByName] at hmo
              exact findByName_go_ne _ _
                (fun p hp => he p (mem_dictRemove hp)) hnone' mo hmo
            · simp [dbAt, dictLookup_remove_self]
            · intro st'' hload
              rw [loadFromDb] at hload
              refine loadRows_none _ ?_ ?_ hload rfl
              · exact fun p hp => hdbe p (mem_dictRemove hp)
              · exact notMem_dictKeys_remove id st.db

/-! ## Claim C2: `list_all` (modelled from the spec) -/

/-- Claim C2 (spec-modelled).  The Manager's `list_all` — absent from
`src/memory/memory_manager.py` and modelled here from spec §4.1 — returns
exactly the snapshot of every cached object, reads only the cache (changing
the durable store changes nothing about its result), and the semantic
layer's `naive_search` is built on it: its result is the `list_all` snapshot
filtered by the case-insensitive substring test, equally independent of the
durable store. -/
theorem C2_listAll_snapshot (st : ManagerState) (q : String) :
    listAll st = st.memories.map Prod.snd ∧
    (∀ db', listAll { st with db := db' } = listAll st) ∧
    (∀ db', naiveSearch { st with db := db' } q = naiveSearch st q) ∧
    naiveSearch st q
      = (listAll st).filter
          (fun m => m.semantic.texts.any (fun t => pyIn (strLower q) (strLower t))) :=
  ⟨rfl, fun _ => rfl, fun _ => rfl, rfl⟩

/-! ## A concrete reachable state, used by the witnesses and
counterexamples -/

/-- A visual record attached to the example object `exA`. -/
def exVisual : VisualEntity Nat :=
  { entity_id := "idA", created_at := 0, updated_at := 0, confidence := 1,
    source := "image", image_id := "img1", bbox := [0, 0, 1, 1],
    view_angle := none, visual_embedding := none }

/-- Example object A: well-defined (name and function both non-empty), one
visual record, one semantic text matching the query "a", usage 0. -/
def exA : MemoryObject :=
  { entity_id := "idA"
    structured :=
      { entity_id := "idA", created_at := 0, updated_at := 0, confidence := 1,
        source := "text", entity_type := "device_component", name := "alpha",
        function := "switch", description := "", device := none, domain := none,
        aliases := ["al"], constraints := ["c1"], metadata := [] }
    semantic :=
      { entity_id := "idA", created_at := 0, updated_at := 0, confidence := 1,
        source := "text", texts := ["a match"], embedding := none,
        language_hints := [] }
    visuals := [exVisual]
    usage_count := 0
    last_accessed_at := 0 }

/-- Example object B: not well-defined (empty name and function), no
visuals, one semantic text matching the query "a", usage 0. -/
def exB : MemoryObject :=
  { entity_id := "idB"
    structured :=
      { entity_id := "idB", created_at := 0, updated_at := 0, confidence := 1,
        source := "text", entity_type := "concept", name := "", function := "",
        description := "", device := none, domain := none, aliases := [],
        constraints := [], metadata := [] }
    semantic :=
      { entity_id := "idB", created_at := 0, updated_at := 0, confidence := 1,
        source := "text", texts := ["also a"], embedding := none,
        language_hints := [] }
    visuals := []
    usage_count := 0
    last_accessed_at := 0 }

/-- The example manager state holding `exA` and `exB`. -/
def exSt : ManagerState :=
  { memories := [("idA", exA), ("idB", exB)]
    nameIndex := [("alpha", ["idA"]), ("", ["idB"])]
    db := [] }

/-! ## Claim C4: explain mode -/

/-- Claim C4 fails on the code.  `explain_logic` on a state with one matching
candidate raises `AttributeError` — the report's `last_seen` entry reads
`m.updated_at`, an attribute `MemoryObject` does not have — and before
raising it has already mutated the first candidate: the `has_visual` and
`is_complete` entries go through the Manager's `get`, incrementing the
candidate's usage_count from 0 to 2 and persisting a row for it, so
explain mode is neither crash-free nor mutation-free. -/
theorem C4_explainLogic_crashes_and_mutates :
    (explainLogic exSt "a" 5).1 = .error .attributeError ∧
    (cacheAt exSt "idA").map MemoryObject.usage_count = some 0 ∧
    (cacheAt (explainLogic exSt "a" 5).2 "idA").map MemoryObject.usage_count
      = some 2 ∧
    dbAt exSt "idA" = none ∧
    (dbAt (explainLogic exSt "a" 5).2 "idA").isSome = true := by
  decide

/-! ## Claim C10: add_visual with metadata -/

/-- Claim C10 fails on the code.  On an existing memory id with a fresh
`(image_id, bbox)` pair, `add_visual` with a non-empty metadata map raises
`AttributeError`: it executes `visual.metadata.update(metadata)`, but
`VisualEntity` has no `metadata` attribute.  The identical call without
metadata succeeds. -/
theorem C10_addVisual_metadata_crashes :
    addVisual exSt "idA" "img2" [0, 0, 1, 1] none 1 [("k", "v")] 5
      = .error .attributeError ∧
    (addVisual exSt "idA" "img2" [0, 0, 1, 1] none 1 [] 5).isOk = true := by
  decide

/-! ## Counterexamples to the claims as originally stated -/

unseal Rat.add Rat.mul Rat.sub Rat.inv in
/-- Counterexample to C1 as stated.  Retrieving "a" with `top_k = 1` on the
two-candidate state: the discarded candidate `idB` ends with `usage_count`
2, not unchanged from 0, and the single survivor `idA` ends with 4, not the
claimed increment of 1. -/
theorem C1_counterexample :
    (cacheAt exSt "idB").map MemoryObject.usage_count = some 0 ∧
    (cacheAt (retrieve exSt "a" false 1 5).2 "idB").map MemoryObject.usage_count
      = some 2 ∧
    (cacheAt (retrieve exSt "a" false 1 5).2 "idA").map MemoryObject.usage_count
      = some 4 ∧
    (retrieve exSt "a" false 1 5).1.map MemoryObject.entity_id = ["idA"] := by
  decide

/-- Counterexample to C5 as stated.  Re-adding a text that is already in the
semantic texts returns `true` — not the claimed no-change `false` — and the
object does not stay unchanged: its usage_count moves from 0 to 1. -/
theorem C5_counterexample :
    "a match" ∈ exA.semantic.texts ∧
    (addText exSt "idA" "a match" none 5).1 = true ∧
    (cacheAt (addText exSt "idA" "a match" none 5).2 "idA").map
      MemoryObject.usage_count = some 1 := by
  decide

unseal Rat.add Rat.mul Rat.sub Rat.inv in
/-- Counterexample to C8 as stated.  On the concrete two-candidate state the
well-defined candidate with a visual scores 77/100, not the claimed
0.75 = 3/4, and the incomplete one scores 11/50, not the claimed 0.2 = 1/5
(the predicate lookups bump each candidate's usage to 2 before the usage
bonus is read). -/
theorem C8_counterexample :
    (scoreAll false 5 exSt (candidateIds exSt "a")).2
      = [("idA", (77 : Rat)/100), ("idB", (11 : Rat)/50)] ∧
    (77 : Rat)/100 ≠ (3 : Rat)/4 ∧ (11 : Rat)/50 ≠ (1 : Rat)/5 := by
  decide

/-! ## Witnesses -/

unseal Rat.add Rat.mul Rat.sub Rat.inv in
/-- Witness for C1: the amended theorem applied at the concrete state. -/
theorem C1_witness :
    cacheAt (retrieve exSt "a" false 1 5).2 "idB"
      = some ((exB.touch 5).touch 5) :=
  ((C1_retrieve_usage_effects exSt "a" false 1 5 (by decide)).2.1 "idB"
    (by decide) (by decide) exB (by decide)).1

/-- Witness for C3: the round-trip theorem applied to `exA` over `exSt`. -/
theorem C3_witness :
    decodeRow (serializeMemory exA) = some exA ∧
    ∃ st', loadFromDb (saveMemory exSt exA).db = some st' ∧
      cacheAt st' exA.entity_id = some exA :=
  C3_save_reload_roundtrip exA exSt
    (fun p hp => absurd hp (List.not_mem_nil p))
    (by decide)
    (fun p hp => absurd hp (List.not_mem_nil p))

/-- Witness for C5: `add_requirements` with already-present values on the
concrete state reports no change. -/
theorem C5_witness :
    addRequirements exSt "idA" ["al"] ["c1"] 5
      = (false, (managerGet exSt "idA" 5).2) :=
  (C5_repeat_add_operations exSt "idA" 5 exA (by decide)).2.1 ["al"] ["c1"]
    (by decide) (by decide)

/-- Witness for C6: the `get` contract applied at the concrete state. -/
theorem C6_witness :
    (managerGet exSt "idA" 5).1 = some (exA.touch 5) :=
  ((C6_get_contract exSt "idA" 5 (by decide)).2 exA (by decide)).1

unseal Rat.add Rat.mul Rat.sub Rat.inv in
/-- Witness for C7: the visual filter applied to the head of a concrete
visual-required retrieval. -/
theorem C7_witness :
    ((retrieve exSt "a" true 5 5).1.headD exA).visuals ≠ [] :=
  C7_retrieve_visual_filter exSt "a" 5 5
    ((retrieve exSt "a" true 5 5).1.headD exA) (by decide)

unseal Rat.add Rat.mul Rat.sub Rat.inv in
/-- Witness for C8: the amended ranking theorem at the concrete state. -/
theorem C8_witness :
    (exA.entity_id, (77 : Rat)/100)
      ∈ (scoreAll false 5 exSt (candidateIds exSt "a")).2 :=
  (C8_ranking_order exSt "a" 5 exA exB (by decide) (by decide) (by decide)
    (by decide) (by decide) (by decide) (by decide) (by decide) (by decide)
    (by decide) (by decide) (by decide)).1

/-- Witness for C9: the delete contract at the concrete state. -/
theorem C9_witness :
    ∃ r, managerDelete exSt "idA" = some r ∧
      (r.1 = true ↔ (cacheAt exSt "idA").isSome) :=
  (C9_delete_contract exSt "idA" 5 (by decide)).1

end Memorize
